import Mathlib

/-!
# OFS: a shallow embedding of `fs.c`

The C file keeps three pieces of process-wide state: the in-memory superblock
`superB`, the byte map `blockBitMap`, and the block device behind `disk.h`.
Here they are the fields of one record that every operation receives and
returns.  A C operation whose execution reads or writes outside an object
(an array index past the end of `blocks[]`, `dirent[]`, `dir[]` or of the
allocated byte map, a `strcpy` from a character array that holds no NUL) has
no defined behaviour; such an execution is the value `none` of the `Option`
each stateful operation returns.
-/

namespace OFS

/-! ## Constants of `fs.c` -/

/-- Modelled from the spec: `disk.h` is not part of the sources.  `BLOCKSZ` is
`DISK_BLOCK_SIZE`; the layout comment of `fs.c` says 1KB and `fs_format`
asserts `sizeof(union fs_block) == BLOCKSZ`, where the superblock member is
2 + 2 + 12 + 2 * 504 = 1024 bytes. -/
def BLOCKSZ : Nat := 1024

def FS_MAGIC : Nat := 0xf0f0
def FNAMESZ : Nat := 11
def LABELSZ : Nat := 12
def MAXDIRSZ : Nat := 504
def FBLOCKS : Nat := 8
def TFILE : Nat := 0x10
def TEMPTY : Nat := 0x00
def TEXT : Nat := 0xff
def FREE : Nat := 0
def NOT_FREE : Nat := 1

/-- The `sizeof(struct fs_dirent)`: 1 + 11 + 2 + 2 + 2 * 8 bytes, asserted to be
32 by `fs_format`. -/
def DIRENT_SIZE : Nat := 32

/-- The macro `DIRENTS_PER_BLOCK`, `BLOCKSZ / sizeof(struct fs_dirent)`. -/
def DIRENTS_PER_BLOCK : Nat := BLOCKSZ / DIRENT_SIZE

/-! ## Data model -/

/-- One disk block, `char data[BLOCKSZ]`: the byte stored at each offset. -/
abbrev Block := Nat → Nat

/-- The `struct fs_dirent`.  `name` has `FNAMESZ` characters and `blocks` has
`FBLOCKS` block numbers. -/
structure fs_dirent where
  st : Nat
  name : List Nat
  ex : Nat
  ss : Nat
  blocks : List Nat
deriving DecidableEq, Repr

/-- The `struct fs_sblock`.  `dir` is the array `dir[MAXDIRSZ]`; only the
indices below `MAXDIRSZ` exist in C. -/
structure fs_sblock where
  magic : Nat
  fssize : Nat
  label : List Nat
  dir : Nat → Nat

/-- The process state of `fs.c` together with the block device.
`blockBitMap` is the object the C pointer of that name points to, one list
element per byte of the `malloc`ed area (the empty list while the pointer is
still null).  `disk` and `nblocks` stand for the device behind `disk_read`,
`disk_write` and `disk_size`. -/
structure FS where
  superB : fs_sblock
  blockBitMap : List Nat
  disk : Nat → Block
  nblocks : Nat

/-- Contents of automatic variables that a C function reads before it has
assigned them: the `struct fs_dirent dirent` of `fs_write` and the
`union fs_block block` of `writeFileEntry`. -/
structure Uninit where
  dirent : fs_dirent
  block : Block

/-! ## Block device -/

/-- Modelled from the spec: `disk_read` of `disk.h`, a block read that always
succeeds. -/
def disk_read (s : FS) (b : Nat) : Block := s.disk b

/-- Modelled from the spec: `disk_write` of `disk.h`, a block write that always
succeeds. -/
def disk_write (s : FS) (b : Nat) (data : Block) : FS :=
  { s with disk := fun n => if n = b then data else s.disk n }

/-! ## Block allocator -/

/-- The scan of `allocBlock`:
`for (i = 0; i < superB.fssize && blockBitMap[i] == NOT_FREE; i++);`
The result is the final value of `i`; `none` when the scan reads past the end
of the byte map. -/
def allocScan (bm : List Nat) (fssize : Nat) : Nat → Nat → Option Nat
  | 0, i => some i
  | fuel + 1, i =>
    if i < fssize then
      match bm[i]? with
      | none => none
      | some v => if v = NOT_FREE then allocScan bm fssize fuel (i + 1) else some i
    else some i

/-- The function `allocBlock`. -/
def allocBlock (s : FS) : Option (FS × Int) :=
  match allocScan s.blockBitMap s.superB.fssize s.superB.fssize 0 with
  | none => none
  | some i =>
    if i < s.superB.fssize then
      some ({ s with blockBitMap := s.blockBitMap.set i NOT_FREE }, (i : Int))
    else some (s, -1)

/-- The function `freeBlock`: `blockBitMap[nblock] = FREE`. -/
def freeBlock (s : FS) (nblock : Nat) : Option FS :=
  if nblock < s.blockBitMap.length then
    some { s with blockBitMap := s.blockBitMap.set nblock FREE }
  else none

/-- The conversion `(uint16_t) x` of an `int`. -/
def toU16 (x : Int) : Nat := (x % 65536).toNat

/-! ## Name codec -/

/-- The `isalpha` of `<ctype.h>` in the C locale. -/
def isalpha (c : Nat) : Bool := (65 ≤ c && c ≤ 90) || (97 ≤ c && c ≤ 122)

/-- The `isdigit` of `<ctype.h>`. -/
def isdigit (c : Nat) : Bool := 48 ≤ c && c ≤ 57

/-- The `toupper` of `<ctype.h>` in the C locale. -/
def toupper (c : Nat) : Nat := if 97 ≤ c ∧ c ≤ 122 then c - 32 else c

/-- A C string held in a list: the character at index `i`, with the
terminating NUL after the last element. -/
def charAt (str : List Nat) (i : Nat) : Nat := str.getD i 0

/-- First loop of `strEncode`: `dst` holds `dst[0..i)`. -/
def strEncodeCopy (str : List Nat) (len : Nat) : Nat → Nat → List Nat → List Nat
  | 0, _, dst => dst
  | fuel + 1, i, dst =>
    if i < len ∧ charAt str i ≠ 0 then
      if isalpha (charAt str i) then
        strEncodeCopy str len fuel (i + 1) (dst ++ [toupper (charAt str i)])
      else if isdigit (charAt str i) || charAt str i = 95 || charAt str i = 46 then
        strEncodeCopy str len fuel (i + 1) (dst ++ [charAt str i])
      else
        strEncodeCopy str len fuel (i + 1) (dst ++ [63])
    else dst

/-- Second loop of `strEncode`: `for (; i < len; i++) dst[i] = ' ';`. -/
def strEncodeFill (len : Nat) : Nat → Nat → List Nat → List Nat
  | 0, _, dst => dst
  | fuel + 1, i, dst =>
    if i < len then strEncodeFill len fuel (i + 1) (dst ++ [32]) else dst

/-- The function `strEncode`; the result is `dst[0..len)`. -/
def strEncode (str : List Nat) (len : Nat) : List Nat :=
  let dst := strEncodeCopy str len len 0 []
  strEncodeFill len len dst.length dst

/-- The `strlen` of `<string.h>`: the number of characters before the first
NUL. -/
def strlen (str : List Nat) : Nat := (str.takeWhile (fun c => c ≠ 0)).length

/-- The `strncmp(a, b, n) == 0` of `<string.h>`: the strings agree on the
first `n` characters, or up to a NUL they both have. -/
def strncmpEq : Nat → List Nat → List Nat → Bool
  | 0, _, _ => true
  | n + 1, a, b =>
    if a.headD 0 ≠ b.headD 0 then false
    else if a.headD 0 = 0 then true
    else strncmpEq n a.tail b.tail

/-- The `strcpy(dst, src)` of `<string.h>` between two character arrays: the
characters of `src` up to and including its first NUL replace the front of
`dst`.  `none` when `src` holds no NUL, so that the read runs past the end of
the array, or when the copy does not fit in `dst`. -/
def strcpy (dst src : List Nat) : Option (List Nat) :=
  if strlen src < src.length ∧ strlen src < dst.length then
    some (src.take (strlen src + 1) ++ dst.drop (strlen src + 1))
  else none

/-! ## The three views of `union fs_block`

A 16-bit field occupies two bytes, low byte first. -/

/-- Byte `k` (0 or 1) of the 16-bit value `v`. -/
def byte16 (v : Nat) (k : Nat) : Nat := if k = 0 then v % 256 else v / 256 % 256

/-- The 16-bit value stored at offset `o` of a block. -/
def rd16 (b : Block) (o : Nat) : Nat := b o + 256 * b (o + 1)

/-- The member `block.dirent[j]` read out of the bytes of a block. -/
def getDirent (b : Block) (j : Nat) : fs_dirent :=
  { st := b (DIRENT_SIZE * j)
    name := (List.range FNAMESZ).map (fun k => b (DIRENT_SIZE * j + 1 + k))
    ex := rd16 b (DIRENT_SIZE * j + 12)
    ss := rd16 b (DIRENT_SIZE * j + 14)
    blocks := (List.range FBLOCKS).map (fun k => rd16 b (DIRENT_SIZE * j + 16 + 2 * k)) }

/-- Byte `o` (below 32) of the representation of a `struct fs_dirent`. -/
def direntByte (e : fs_dirent) (o : Nat) : Nat :=
  if o = 0 then e.st % 256
  else if o < 12 then e.name.getD (o - 1) 0 % 256
  else if o < 14 then byte16 e.ex (o - 12)
  else if o < 16 then byte16 e.ss (o - 14)
  else byte16 (e.blocks.getD ((o - 16) / 2) 0) ((o - 16) % 2)

/-- The assignment `block.dirent[j] = e` on the bytes of a block. -/
def setDirent (b : Block) (j : Nat) (e : fs_dirent) : Block :=
  fun i =>
    if DIRENT_SIZE * j ≤ i ∧ i < DIRENT_SIZE * j + DIRENT_SIZE then
      direntByte e (i - DIRENT_SIZE * j)
    else b i

/-- The member `block.super` read out of the bytes of a block. -/
def getSuper (b : Block) : fs_sblock :=
  { magic := rd16 b 0
    fssize := rd16 b 2
    label := (List.range LABELSZ).map (fun k => b (4 + k))
    dir := fun i => rd16 b (16 + 2 * i) }

/-- The assignment `block.super = sb` on the bytes of a block; the superblock
covers the whole block. -/
def setSuper (b : Block) (sb : fs_sblock) : Block :=
  fun i =>
    if i < 2 then byte16 sb.magic i
    else if i < 4 then byte16 sb.fssize (i - 2)
    else if i < 16 then sb.label.getD (i - 4) 0 % 256
    else if i < BLOCKSZ then byte16 (sb.dir ((i - 16) / 2)) ((i - 16) % 2)
    else b i

/-! ## Directory and entry store -/

/-- The test of `readFileEntry` on one slot. -/
def entryMatches (e : fs_dirent) (name : List Nat) (ext : Nat) : Bool :=
  (((ext == 0 && e.st == TFILE)) && strncmpEq FNAMESZ e.name name) ||
  (((e.st == TEXT && e.ex == ext)) && strncmpEq FNAMESZ e.name name)

/-- Inner loop of `readFileEntry` over the slots `j` of one directory block. -/
def readFileEntrySlots (block : Block) (name : List Nat) (ext : Nat) :
    Nat → Nat → Option Nat
  | 0, _ => none
  | fuel + 1, j =>
    if j < DIRENTS_PER_BLOCK then
      if entryMatches (getDirent block j) name ext then some j
      else readFileEntrySlots block name ext fuel (j + 1)
    else none

/-- Outer loop of `readFileEntry` over the directory list. -/
def readFileEntryDirs (s : FS) (name : List Nat) (ext : Nat) :
    Nat → Nat → Option (Nat × fs_dirent)
  | 0, _ => none
  | fuel + 1, dirblk =>
    if dirblk < MAXDIRSZ ∧ s.superB.dir dirblk ≠ 0 then
      match readFileEntrySlots (disk_read s (s.superB.dir dirblk)) name ext
          DIRENTS_PER_BLOCK 0 with
      | some j =>
        some (dirblk * DIRENTS_PER_BLOCK + j,
          getDirent (disk_read s (s.superB.dir dirblk)) j)
      | none => readFileEntryDirs s name ext fuel (dirblk + 1)
    else none

/-- The function `readFileEntry`, called with a non-null `ent`.  The result
`none` is the return value -1; `some (idx, e)` is the return value `idx` with
`*ent = e`. -/
def readFileEntry (s : FS) (name : List Nat) (ext : Nat) : Option (Nat × fs_dirent) :=
  readFileEntryDirs s name ext MAXDIRSZ 0

/-- Inner loop of the insert branch of `writeFileEntry`: the first slot whose
status is `TEMPTY`. -/
def findEmptySlot (block : Block) : Nat → Nat → Option Nat
  | 0, _ => none
  | fuel + 1, blk =>
    if blk < DIRENTS_PER_BLOCK then
      if (getDirent block blk).st = TEMPTY then some blk
      else findEmptySlot block fuel (blk + 1)
    else none

/-- Outer loop of the insert branch of `writeFileEntry`.  `Sum.inl` is the
`return` inside the loop; `Sum.inr (dir, block)` is the loop running out, with
the final `dir` and the content of the local `block` at that point. -/
def insertScan (s : FS) (entry : fs_dirent) :
    Nat → Nat → Block → Sum (FS × Int) (Nat × Block)
  | 0, dir, block => Sum.inr (dir, block)
  | fuel + 1, dir, block =>
    if dir < MAXDIRSZ then
      if s.superB.dir dir = 0 then Sum.inr (dir, block)
      else
        match findEmptySlot (disk_read s (s.superB.dir dir)) DIRENTS_PER_BLOCK 0 with
        | some blk =>
          Sum.inl (disk_write s (s.superB.dir dir)
              (setDirent (disk_read s (s.superB.dir dir)) blk entry),
            ((dir * DIRENTS_PER_BLOCK + blk : Nat) : Int))
        | none => insertScan s entry fuel (dir + 1) (disk_read s (s.superB.dir dir))
    else Sum.inr (dir, block)

/-- The function `writeFileEntry`.  `block0` is the indeterminate initial
content of the local `block`.

In the update branch `DIRENTS_PER_BLOCK` has type `size_t`, so
`idx -= -directoryIndex * DIRENTS_PER_BLOCK` is computed modulo a power of two
and leaves `idx + directoryIndex * DIRENTS_PER_BLOCK` in `idx`.  An `idx` below
-1 gives a negative `directoryIndex`, an index outside `superB.dir`. -/
def writeFileEntry (s : FS) (block0 : Block) (idx : Int) (entry : fs_dirent) :
    Option (FS × Int) :=
  if idx = -1 then
    match insertScan s entry MAXDIRSZ 0 block0 with
    | Sum.inl r => some r
    | Sum.inr (dir, block) =>
      match allocBlock s with
      | none => none
      | some (s1, r) =>
        if dir < MAXDIRSZ then
          let sb : fs_sblock :=
            { s1.superB with dir := fun i => if i = dir then toU16 r else s1.superB.dir i }
          let s2 : FS := { s1 with superB := sb }
          let s3 := disk_write s2 (toU16 r) block
          some (disk_write s3 0 (setSuper block sb), ((dir * DIRENTS_PER_BLOCK : Nat) : Int))
        else none
  else if idx < 0 then none
  else
    let directoryIndex := idx.toNat / DIRENTS_PER_BLOCK
    let idx1 := idx.toNat + directoryIndex * DIRENTS_PER_BLOCK
    if directoryIndex < MAXDIRSZ then
      if s.superB.dir directoryIndex = 0 then some (s, -1)
      else if idx1 < DIRENTS_PER_BLOCK then
        some (disk_write s (s.superB.dir directoryIndex)
            (setDirent (disk_read s (s.superB.dir directoryIndex)) idx1 entry),
          ((directoryIndex * DIRENTS_PER_BLOCK + idx1 : Nat) : Int))
      else none
    else none

/-- Loop of `freeDirent` over the block pointers. -/
def freeDirentLoop (blocks : List Nat) : Nat → Nat → FS → Option FS
  | 0, _, s => some s
  | fuel + 1, blk, s =>
    if blk < FBLOCKS then
      if blocks.getD blk 0 ≠ 0 then
        match freeBlock s (blocks.getD blk 0) with
        | none => none
        | some s1 => freeDirentLoop blocks fuel (blk + 1) s1
      else freeDirentLoop blocks fuel (blk + 1) s
    else some s

/-- The function `freeDirent`; the second component is `*dirent` afterwards. -/
def freeDirent (s : FS) (dirent : fs_dirent) : Option (FS × fs_dirent) :=
  match freeDirentLoop dirent.blocks FBLOCKS 0 s with
  | none => none
  | some s1 => some (s1, { dirent with st := FREE })

/-- The function `fs_delete`. -/
def fs_delete (s : FS) (u : Uninit) (name : List Nat) : Option (FS × Int) :=
  if s.superB.magic ≠ FS_MAGIC then some (s, -1)
  else
    match readFileEntry s (strEncode name FNAMESZ) 0 with
    | none => some (s, -1)
    | some (idx, dirent) =>
      match freeDirent s dirent with
      | none => none
      | some (s1, dirent1) =>
        match writeFileEntry s1 u.block (idx : Int) dirent1 with
        | none => none
        | some (s2, _) => some (s2, 0)

/-! ## Format and mount -/

/-- The state at process start: the global `superB` is zero-initialised and
`blockBitMap` is a null pointer. -/
def boot (disk : Nat → Block) (nblocks : Nat) : FS :=
  { superB := { magic := 0, fssize := 0, label := List.replicate LABELSZ 0, dir := fun _ => 0 }
    blockBitMap := []
    disk := disk
    nblocks := nblocks }

/-- The function `fs_format`.  The block it builds is all zero apart from the
fields it assigns; `fssize` receives `disk_size()` converted to `uint16_t`. -/
def fs_format (s : FS) (disklabel : List Nat) : FS × Int :=
  if s.superB.magic = FS_MAGIC then (s, 0)
  else
    let s1 := disk_write s 1 (fun _ => 0)
    let sb : fs_sblock :=
      { magic := FS_MAGIC
        fssize := s.nblocks % 65536
        label := strEncode disklabel LABELSZ
        dir := fun i => if i = 0 then 1 else 0 }
    (disk_write s1 0 (setSuper (fun _ => 0) sb), 1)

/-- The assignment `blockBitMap[i] = NOT_FREE` of `fs_mount`. -/
def markUsed (bm : List Nat) (i : Nat) : Option (List Nat) :=
  if i < bm.length then some (bm.set i NOT_FREE) else none

/-- Innermost loop of `fs_mount` over the block pointers of one entry. -/
def mountBlocks (blocks : List Nat) : Nat → Nat → List Nat → Option (List Nat)
  | 0, _, bm => some bm
  | fuel + 1, blk, bm =>
    if blk < FBLOCKS then
      if blocks.getD blk 0 ≠ 0 then
        match markUsed bm (blocks.getD blk 0) with
        | none => none
        | some bm1 => mountBlocks blocks fuel (blk + 1) bm1
      else mountBlocks blocks fuel (blk + 1) bm
    else some bm

/-- Middle loop of `fs_mount` over the slots of one directory block. -/
def mountDirents (block : Block) : Nat → Nat → List Nat → Option (List Nat)
  | 0, _, bm => some bm
  | fuel + 1, dirent, bm =>
    if dirent < DIRENTS_PER_BLOCK then
      if (getDirent block dirent).st ≠ 0 then
        match mountBlocks (getDirent block dirent).blocks FBLOCKS 0 bm with
        | none => none
        | some bm1 => mountDirents block fuel (dirent + 1) bm1
      else mountDirents block fuel (dirent + 1) bm
    else some bm

/-- Outer loop of `fs_mount` over the directory list. -/
def mountDirs (s : FS) : Nat → Nat → List Nat → Option (List Nat)
  | 0, _, bm => some bm
  | fuel + 1, dir, bm =>
    if dir < MAXDIRSZ then
      if s.superB.dir dir ≠ 0 then
        match markUsed bm (s.superB.dir dir) with
        | none => none
        | some bm1 =>
          match mountDirents (disk_read s (s.superB.dir dir)) DIRENTS_PER_BLOCK 0 bm1 with
          | none => none
          | some bm2 => mountDirs s fuel (dir + 1) bm2
      else mountDirs s fuel (dir + 1) bm
    else some bm

/-- The function `fs_mount`.  `heap i` is the indeterminate content of byte `i`
of the area returned by `malloc(superB.fssize * sizeof(uint16_t))`; the
`memset` clears `sizeof(uint16_t)` bytes of it, that is the first two. -/
def fs_mount (s : FS) (heap : Nat → Nat) : Option (FS × Int) :=
  if s.superB.magic = FS_MAGIC then some (s, 0)
  else
    let s1 : FS := { s with superB := getSuper (disk_read s 0) }
    if s1.superB.magic ≠ FS_MAGIC then some (s1, 0)
    else if s1.superB.fssize ≠ s1.nblocks then some (s1, 0)
    else
      let area := (List.range (s1.superB.fssize * 2)).map heap
      if 2 ≤ area.length then
        let bm := ((area.set 0 FREE).set 1 FREE).set 0 NOT_FREE
        match mountDirs s1 MAXDIRSZ 0 bm with
        | none => none
        | some bm1 => some ({ s1 with blockBitMap := bm1 }, 1)
      else none

/-! ## File I/O -/

/-- A byte-copy loop of `fs_read`.  `data` holds the bytes copied so far, so
`readBytes` is its length. -/
def readBytesLoop (block : Block) (length offset ss : Nat) :
    Nat → Nat → List Nat → List Nat
  | 0, _, data => data
  | fuel + 1, byte, data =>
    if byte < BLOCKSZ ∧ data.length < length ∧ offset + data.length < ss then
      readBytesLoop block length offset ss fuel (byte + 1) (data ++ [block byte])
    else data

/-- The loop of `fs_read` over the blocks after the first one. -/
def readBlocksLoop (s : FS) (dirent : fs_dirent) (length offset : Nat) :
    Nat → Nat → List Nat → List Nat
  | 0, _, data => data
  | fuel + 1, blk, data =>
    if blk < FBLOCKS ∧ data.length < length ∧ offset + data.length < dirent.ss then
      if dirent.blocks.getD blk 0 ≠ 0 then
        readBlocksLoop s dirent length offset fuel (blk + 1)
          (readBytesLoop (disk_read s (dirent.blocks.getD blk 0)) length offset dirent.ss
            BLOCKSZ 0 data)
      else readBlocksLoop s dirent length offset fuel (blk + 1) data
    else data

/-- The function `fs_read` for `length` and `offset` that are not negative.
The result is the return value and the bytes stored in `data[0..readBytes)`. -/
def fs_read (s : FS) (name : List Nat) (length offset : Nat) : Option (Int × List Nat) :=
  if s.superB.magic ≠ FS_MAGIC then some (-1, [])
  else
    match readFileEntry s (strEncode name FNAMESZ) 0 with
    | none => some (-1, [])
    | some (_, dirent) =>
      let startingBLk := offset / BLOCKSZ
      let firstByte := offset - startingBLk * BLOCKSZ
      if startingBLk < FBLOCKS then
        let data := readBytesLoop (disk_read s (dirent.blocks.getD startingBLk 0))
          length offset dirent.ss BLOCKSZ firstByte []
        let data := readBlocksLoop s dirent length offset FBLOCKS (startingBLk + 1) data
        some ((data.length : Int), data)
      else none

/-- The loop `while (index > DIRENTS_PER_BLOCK) { dir++; index -= DIRENTS_PER_BLOCK; }`
of `fs_write`; the result is the final `index`. -/
def normIndex : Nat → Nat → Nat
  | 0, index => index
  | fuel + 1, index =>
    if index > DIRENTS_PER_BLOCK then normIndex fuel (index - DIRENTS_PER_BLOCK) else index

/-- Allocation loop of `fs_write` for an existing file:
`for (i = ...; i < blocksNeeded; i++) blocks[i] = (uint16_t) allocBlock();` -/
def extendBlocks (blocksNeeded : Nat) : Nat → Nat → FS → List Nat → Option (FS × List Nat)
  | 0, _, s, blocks => some (s, blocks)
  | fuel + 1, i, s, blocks =>
    if i < blocksNeeded then
      match allocBlock s with
      | none => none
      | some (s1, r) =>
        if i < FBLOCKS then extendBlocks blocksNeeded fuel (i + 1) s1 (blocks.set i (toU16 r))
        else none
    else some (s, blocks)

/-- Allocation loop of `fs_write` for a new file: each pointer is stored and
then `blockBitMap[dirent.blocks[i]] = NOT_FREE` is executed. -/
def createBlocks (blocksNeeded : Nat) : Nat → Nat → FS → List Nat → Option (FS × List Nat)
  | 0, _, s, blocks => some (s, blocks)
  | fuel + 1, i, s, blocks =>
    if i < blocksNeeded then
      match allocBlock s with
      | none => none
      | some (s1, r) =>
        if i < FBLOCKS then
          match markUsed s1.blockBitMap (toU16 r) with
          | none => none
          | some bm =>
            createBlocks blocksNeeded fuel (i + 1) { s1 with blockBitMap := bm }
              (blocks.set i (toU16 r))
        else none
    else some (s, blocks)

/-- A byte-copy loop of `fs_write` into the local `block`; the result is the
block and `bytesWritten`. -/
def fillBlock (data : List Nat) (length : Nat) : Nat → Nat → Block → Nat → Block × Nat
  | 0, _, block, bytesWritten => (block, bytesWritten)
  | fuel + 1, byte, block, bytesWritten =>
    if byte < BLOCKSZ ∧ bytesWritten < length then
      fillBlock data length fuel (byte + 1)
        (fun i => if i = byte then data.getD bytesWritten 0 else block i) (bytesWritten + 1)
    else (block, bytesWritten)

/-- The loop of `fs_write` over the blocks after the first one. -/
def writeBlocks (data : List Nat) (length : Nat) (blocks : List Nat) :
    Nat → Nat → FS → Nat → Option (FS × Nat)
  | 0, _, s, bytesWritten => some (s, bytesWritten)
  | fuel + 1, blk, s, bytesWritten =>
    if bytesWritten < length then
      if blk < FBLOCKS then
        writeBlocks data length blocks fuel (blk + 1)
          (disk_write s (blocks.getD blk 0)
            (fillBlock data length BLOCKSZ 0 (fun _ => 0) bytesWritten).1)
          (fillBlock data length BLOCKSZ 0 (fun _ => 0) bytesWritten).2
      else none
    else some (s, bytesWritten)

/-- First part of `fs_write`, up to the comment "starts writing to blocks":
the state, the local `dirent` and the local `index` (-1 for a new file).
`fname` is the content of the array `char fname[FNAMESZ]` that `strEncode`
filled.  In the new-file branch `strcpy(dirent.name, fname)` copies that array
as a C string into the name field, and
`memset(dirent.blocks, 0x0, sizeof(uint16_t))` clears `blocks[0]` only. -/
def fs_write_prepare (s : FS) (u : Uninit) (fname : List Nat) (length offset : Nat) :
    Option (FS × fs_dirent × Int) :=
  match readFileEntry s fname 0 with
  | some (index, dirent) =>
    let blocksNeeded := (offset + length) / BLOCKSZ + 1
    if blocksNeeded > dirent.ss / BLOCKSZ + 1 then
      match extendBlocks blocksNeeded blocksNeeded (dirent.ss / BLOCKSZ + 1) s dirent.blocks with
      | none => none
      | some (s1, blocks) =>
        some (s1, { dirent with blocks := blocks }, ((normIndex MAXDIRSZ index : Nat) : Int))
    else some (s, dirent, ((normIndex MAXDIRSZ index : Nat) : Int))
  | none =>
    match strcpy u.dirent.name fname with
    | none => none
    | some name1 =>
      let blocksNeeded := (length + offset) / BLOCKSZ + 1
      match createBlocks blocksNeeded blocksNeeded 0 s (u.dirent.blocks.set 0 0) with
      | none => none
      | some (s1, blocks) =>
        some (s1, { st := TFILE, name := name1, ex := 0, ss := 0, blocks := blocks }, -1)

/-- The size update at the end of `fs_write`; the results are `uint16_t`. -/
def fs_write_size (index : Int) (ss : Nat) (length offset bytesWritten : Nat) : Nat :=
  if index ≠ -1 ∧ ss < offset + length ∧ offset < ss then (offset + length) % 65536
  else if ss < offset + length then (ss + bytesWritten) % 65536
  else ss

/-- The function `fs_write` for `length` and `offset` that are not negative. -/
def fs_write (s : FS) (u : Uninit) (name data : List Nat) (length offset : Nat) :
    Option (FS × Int) :=
  if s.superB.magic ≠ FS_MAGIC then some (s, -1)
  else
    match fs_write_prepare s u (strEncode name FNAMESZ) length offset with
    | none => none
    | some (s1, dirent, index) =>
      let startingBlock := offset / BLOCKSZ
      let startingByte := offset - startingBlock * BLOCKSZ
      let first := fillBlock data length BLOCKSZ startingByte (fun _ => 0) 0
      if startingBlock < FBLOCKS then
        let s2 := disk_write s1 (dirent.blocks.getD startingBlock 0) first.1
        match writeBlocks data length dirent.blocks length (startingBlock + 1) s2 first.2 with
        | none => none
        | some (s3, bytesWritten) =>
          let dirent1 : fs_dirent :=
            { dirent with ss := fs_write_size index dirent.ss length offset bytesWritten }
          match writeFileEntry s3 u.block index dirent1 with
          | none => none
          | some (s4, _) => some (s4, (bytesWritten : Int))
      else none

/-! ## Definitions used to state the properties -/

/-- The characters of a string literal as a C string. -/
def cstr (s : String) : List Nat := s.toList.map Char.toNat

/-- The character `strEncode` stores for the source character `c`. -/
def encodeChar (c : Nat) : Nat :=
  if isalpha c then toupper c
  else if isdigit c || c = 95 || c = 46 then c
  else 63

/-- Entry `i` of the byte map exists and marks block `i` as used. -/
def isUsed (bm : List Nat) (i : Nat) : Prop := bm[i]? = some NOT_FREE

/-- Entry `i` of the byte map exists and does not mark block `i` as used: the
scan of `allocBlock` stops at such an entry. -/
def isFree (bm : List Nat) (i : Nat) : Prop := ∃ v, bm[i]? = some v ∧ v ≠ NOT_FREE

/-- Automatic variables whose indeterminate content happens to be all zero. -/
def zeroUninit : Uninit :=
  { dirent := { st := 0, name := List.replicate FNAMESZ 0, ex := 0, ss := 0,
                blocks := List.replicate FBLOCKS 0 }
    block := fun _ => 0 }

/-- The state an `Option` result carries, `s` when there is none. -/
def stateOr (s : FS) (r : Option (FS × Int)) : FS :=
  match r with
  | some (s1, _) => s1
  | none => s

/-- The return value of an `Option` result. -/
def retOf (r : Option (FS × Int)) : Option Int :=
  match r with
  | some (_, v) => some v
  | none => none

/-- The state after `fs_format("DISK")` and `fs_mount()` on a blank device of
`n` blocks, with a `malloc` area that happens to be all zero. -/
def mountedVolume (n : Nat) : FS :=
  stateOr (fs_format (boot (fun _ _ => 0) n) (cstr "DISK")).1
    (fs_mount (fs_format (boot (fun _ _ => 0) n) (cstr "DISK")).1 (fun _ => 0))

/-- The state after `fs_mount()` on the device image `img` of `n` blocks, with
a `malloc` area that happens to be all zero. -/
def mountImage (img : Nat → Block) (n : Nat) : FS :=
  stateOr (boot img n) (fs_mount (boot img n) (fun _ => 0))

/-- The names of the primary (file) entries in the listed directory blocks, in
directory order. -/
def primaryNames (s : FS) : List (List Nat) :=
  (List.range MAXDIRSZ).flatMap fun d =>
    if s.superB.dir d = 0 then []
    else
      (List.range DIRENTS_PER_BLOCK).filterMap fun j =>
        if (getDirent (disk_read s (s.superB.dir d)) j).st = TFILE then
          some (getDirent (disk_read s (s.superB.dir d)) j).name
        else none

/-- A device image of 8 blocks whose directory list is `[1, 2]`: block 1 has no
entry in use and slot 0 of block 2 holds the file `B`, 5 bytes in block 3. -/
def twoDirImage : Nat → Block := fun b =>
  if b = 0 then
    setSuper (fun _ => 0)
      { magic := FS_MAGIC, fssize := 8, label := strEncode (cstr "DISK") LABELSZ
        dir := fun i => if i = 0 then 1 else if i = 1 then 2 else 0 }
  else if b = 2 then
    setDirent (fun _ => 0) 0
      { st := TFILE, name := strEncode (cstr "B") FNAMESZ, ex := 0, ss := 5
        blocks := [3, 0, 0, 0, 0, 0, 0, 0] }
  else fun _ => 0

/-- Entry `j` of the full directory block of `fullDirImage`: a one-byte file
with a name of its own, stored in block `2 + j`. -/
def fullDirEntry (j : Nat) : fs_dirent :=
  { st := TFILE, name := strEncode [65 + j % 26, 48 + j / 26] FNAMESZ, ex := 0, ss := 1
    blocks := [2 + j, 0, 0, 0, 0, 0, 0, 0] }

/-- A device image of 40 blocks whose only directory block, block 1, has a file
in each of its 32 slots. -/
def fullDirImage : Nat → Block := fun b =>
  if b = 0 then
    setSuper (fun _ => 0)
      { magic := FS_MAGIC, fssize := 40, label := strEncode (cstr "DISK") LABELSZ
        dir := fun i => if i = 0 then 1 else 0 }
  else if b = 1 then fun i => direntByte (fullDirEntry (i / DIRENT_SIZE)) (i % DIRENT_SIZE)
  else fun _ => 0

/-- A device image of 8 blocks with one directory block, block 1, whose slot 0
holds the file `NOTE`: 5 bytes, "HELLO", in block 2. -/
def noteImage : Nat → Block := fun b =>
  if b = 0 then
    setSuper (fun _ => 0)
      { magic := FS_MAGIC, fssize := 8, label := strEncode (cstr "DISK") LABELSZ
        dir := fun i => if i = 0 then 1 else 0 }
  else if b = 1 then
    setDirent (fun _ => 0) 0
      { st := TFILE, name := strEncode (cstr "NOTE") FNAMESZ, ex := 0, ss := 5
        blocks := [2, 0, 0, 0, 0, 0, 0, 0] }
  else if b = 2 then fun i => (cstr "HELLO").getD i 0
  else fun _ => 0

/-- The mounted volume that holds the 5-byte file `NOTE`: the state after
`fs_mount()` on `noteImage`. -/
def noteVolume : FS := mountImage noteImage 8

/-- A device image of 3 blocks with one directory block, block 1, whose slot 0
holds the file `A`: 1 byte, "x", in block 2. -/
def fullImage : Nat → Block := fun b =>
  if b = 0 then
    setSuper (fun _ => 0)
      { magic := FS_MAGIC, fssize := 3, label := strEncode (cstr "DISK") LABELSZ
        dir := fun i => if i = 0 then 1 else 0 }
  else if b = 1 then
    setDirent (fun _ => 0) 0
      { st := TFILE, name := strEncode (cstr "A") FNAMESZ, ex := 0, ss := 1
        blocks := [2, 0, 0, 0, 0, 0, 0, 0] }
  else if b = 2 then fun i => (cstr "x").getD i 0
  else fun _ => 0

/-- The state after `fs_mount()` on `fullImage`: the file `A` holds block 2,
and no block of the volume is free. -/
def fullVolume : FS := mountImage fullImage 3

/-- A device image of 8 blocks whose directory list is `[1, 2]`: slot 1 of block
1 holds the file `A` (1 byte in block 3) and slot 1 of block 2, directory index
33, holds the file `B` (1 byte in block 4). -/
def shadowImage : Nat → Block := fun b =>
  if b = 0 then
    setSuper (fun _ => 0)
      { magic := FS_MAGIC, fssize := 8, label := strEncode (cstr "DISK") LABELSZ
        dir := fun i => if i = 0 then 1 else if i = 1 then 2 else 0 }
  else if b = 1 then
    setDirent (fun _ => 0) 1
      { st := TFILE, name := strEncode (cstr "A") FNAMESZ, ex := 0, ss := 1
        blocks := [3, 0, 0, 0, 0, 0, 0, 0] }
  else if b = 2 then
    setDirent (fun _ => 0) 1
      { st := TFILE, name := strEncode (cstr "B") FNAMESZ, ex := 0, ss := 1
        blocks := [4, 0, 0, 0, 0, 0, 0, 0] }
  else fun _ => 0

/-- The entry `readFileEntry` finds for a file name, if any. -/
def lookup (s : FS) (name : List Nat) : Option fs_dirent :=
  match readFileEntry s (strEncode name FNAMESZ) 0 with
  | some (_, e) => some e
  | none => none

/-- The state after `fs_write("A", data, 1024, 0)` on `fullVolume`. -/
def exhaustedVolume : FS :=
  stateOr fullVolume
    (fs_write fullVolume zeroUninit (cstr "A") (List.replicate 1024 65) 1024 0)

/-- The states reached from a successful `fs_mount` by calls of `fs_write` and
`fs_delete`. -/
inductive Reachable : FS → Prop
  | mount (s : FS) (heap : Nat → Nat) (s1 : FS) :
      fs_mount s heap = some (s1, 1) → Reachable s1
  | write (s : FS) (u : Uninit) (name data : List Nat) (length offset : Nat) (s1 : FS)
      (r : Int) :
      Reachable s → fs_write s u name data length offset = some (s1, r) → Reachable s1
  | delete (s : FS) (u : Uninit) (name : List Nat) (s1 : FS) (r : Int) :
      Reachable s → fs_delete s u name = some (s1, r) → Reachable s1

/-- The allocator invariant of the data model: block 0, every listed directory
block and every non-zero block pointer of an entry in use are marked used. -/
def allocatorInvariant (s : FS) : Prop :=
  isUsed s.blockBitMap 0 ∧
  (∀ d, d < MAXDIRSZ → s.superB.dir d ≠ 0 → isUsed s.blockBitMap (s.superB.dir d)) ∧
  (∀ d, d < MAXDIRSZ → s.superB.dir d ≠ 0 →
    ∀ j, j < DIRENTS_PER_BLOCK →
      (getDirent (disk_read s (s.superB.dir d)) j).st ≠ TEMPTY →
      ∀ k, k < FBLOCKS →
        (getDirent (disk_read s (s.superB.dir d)) j).blocks.getD k 0 ≠ 0 →
        isUsed s.blockBitMap ((getDirent (disk_read s (s.superB.dir d)) j).blocks.getD k 0))

/-- The value of a `struct fs_dirent`: every member is within the range of its
C type and the two arrays have their declared lengths. -/
def WfDirent (e : fs_dirent) : Prop :=
  e.st < 256 ∧ e.name.length = FNAMESZ ∧ (∀ c, c ∈ e.name → c < 256) ∧
  e.ex < 65536 ∧ e.ss < 65536 ∧
  e.blocks.length = FBLOCKS ∧ (∀ p, p ∈ e.blocks → p < 65536)

/-- Directory position `d` is reached by the directory scans: it is below
`MAXDIRSZ` and the directory list has no zero at or before it. -/
def Listed (s : FS) (d : Nat) : Prop := d < MAXDIRSZ ∧ ∀ k, k ≤ d → s.superB.dir k ≠ 0

/-- The entry in slot `j` of the directory block at position `d` of the list. -/
def slotEntry (s : FS) (d j : Nat) : fs_dirent := getDirent (disk_read s (s.superB.dir d)) j

/-- Slot `(d, j)` comes before slot `(d1, j1)` in scan order. -/
def slotBefore (d j d1 j1 : Nat) : Prop := d < d1 ∨ (d = d1 ∧ j < j1)

/-- The number of free entries of the byte map below index `n`. -/
def freeCount (bm : List Nat) : Nat → Nat
  | 0 => 0
  | n + 1 =>
    freeCount bm n +
      (match bm[n]? with
       | some v => if v = NOT_FREE then 0 else 1
       | none => 0)

/-- The content `fs_write` gives to the block at position `j` of the pointer
array: the bytes of `data` that fall into file positions
`[j * BLOCKSZ, (j + 1) * BLOCKSZ)`, and zero elsewhere. -/
def writtenBlock (data : List Nat) (length offset j : Nat) : Block :=
  fun i =>
    if offset ≤ j * BLOCKSZ + i ∧ j * BLOCKSZ + i < offset + length ∧ i < BLOCKSZ then
      data.getD (j * BLOCKSZ + i - offset) 0
    else 0

/-- The byte at file position `pos` as `fs_read` finds it through the block
pointers of the entry `e`. -/
def fileByte (s : FS) (e : fs_dirent) (pos : Nat) : Nat :=
  disk_read s (e.blocks.getD (pos / BLOCKSZ) 0) (pos % BLOCKSZ)

/-- The conditions on a mounted volume under which the write path is followed
here: the byte map covers the volume, and block 0 and the listed directory
blocks are marked used. -/
structure VolumeOk (s : FS) : Prop where
  mounted : s.superB.magic = FS_MAGIC
  mapCovers : s.superB.fssize ≤ s.blockBitMap.length
  fssize16 : s.superB.fssize ≤ 65536
  block0 : isUsed s.blockBitMap 0
  dirUsed : ∀ d, Listed s d → isUsed s.blockBitMap (s.superB.dir d)

/-- The conditions on the entry of an existing file: the pointers it holds for
its `ss / BLOCKSZ + 1` blocks are non-zero, marked used, different from the
directory blocks and different from each other. -/
structure EntryOk (s : FS) (e : fs_dirent) : Prop where
  wf : WfDirent e
  held : ∀ k, k ≤ e.ss / BLOCKSZ → k < FBLOCKS →
    e.blocks.getD k 0 ≠ 0 ∧ isUsed s.blockBitMap (e.blocks.getD k 0) ∧
    ∀ d, Listed s d → s.superB.dir d ≠ e.blocks.getD k 0
  distinct : ∀ k1 k2, k1 < k2 → k2 ≤ e.ss / BLOCKSZ → k2 < FBLOCKS →
    e.blocks.getD k1 0 ≠ e.blocks.getD k2 0

/-- The stored size of the file `name`, 0 when it has no primary entry. -/
def storedSize (s : FS) (name : List Nat) : Nat :=
  match readFileEntry s (strEncode name FNAMESZ) 0 with
  | some (_, e) => e.ss
  | none => 0

/-- The conditions under which `fs_write(name, data, length, offset)` on an
existing file is followed here.  The volume is consistent, the request stays
within the 8 block pointers, the file exists, its entry is in the first
directory block and sound, and the byte map has a free block for every pointer
the write adds. -/
def WriteReady (s : FS) (name : List Nat) (length offset : Nat) : Prop :=
  VolumeOk s ∧ offset + length < FBLOCKS * BLOCKSZ ∧
  match readFileEntry s (strEncode name FNAMESZ) 0 with
  | some (idx, e) =>
    idx < DIRENTS_PER_BLOCK ∧ EntryOk s e ∧
    (offset + length) / BLOCKSZ + 1 - (e.ss / BLOCKSZ + 1) ≤
      freeCount s.blockBitMap s.superB.fssize
  | none => False

/-- What an allocation loop of `fs_write` leaves behind when it fills the
pointer positions `i .. hi - 1` of `blocks`: the positions outside are kept,
each position inside holds a block that was free and is now used, these blocks
differ from each other, and nothing else changes. -/
structure AllocOutcome (s s1 : FS) (blocks blocks1 : List Nat) (i hi : Nat) : Prop where
  superB : s1.superB = s.superB
  disk : s1.disk = s.disk
  nblocks : s1.nblocks = s.nblocks
  mapLength : s1.blockBitMap.length = s.blockBitMap.length
  length : blocks1.length = FBLOCKS
  kept : ∀ k, k < i ∨ hi ≤ k → blocks1[k]? = blocks[k]?
  granted : ∀ k, i ≤ k → k < hi →
    ∃ p, blocks1[k]? = some p ∧ p < s.superB.fssize ∧
      isFree s.blockBitMap p ∧ isUsed s1.blockBitMap p
  distinct : ∀ k1 k2, i ≤ k1 → k1 < k2 → k2 < hi → blocks1[k1]? ≠ blocks1[k2]?
  usedKept : ∀ q, isUsed s.blockBitMap q → isUsed s1.blockBitMap q
  others : ∀ q, (∀ k, i ≤ k → k < hi → blocks1[k]? ≠ some q) →
    s1.blockBitMap[q]? = s.blockBitMap[q]?
  count : freeCount s1.blockBitMap s.superB.fssize + (hi - i) =
    freeCount s.blockBitMap s.superB.fssize

/-- What a followed `fs_write` leaves behind.  `e0` is the entry it started
from, `i0` the first pointer position it allocated, `index` its local `index`, `s1` the state after the allocation part,
`s4` the final state, and `(idx1, e1)` what `readFileEntry` finds for the name
in `s4`. -/
structure WriteEffect (s : FS) (name data : List Nat) (length offset : Nat)
    (e0 : fs_dirent) (i0 : Nat) (index : Int) (s1 s4 : FS) (idx1 : Nat) (e1 : fs_dirent) :
    Prop where
  alloc : AllocOutcome s s1 e0.blocks e1.blocks i0 ((offset + length) / 1024 + 1)
  superB : s4.superB = s.superB
  map : s4.blockBitMap = s1.blockBitMap
  found : readFileEntry s4 (strEncode name FNAMESZ) 0 = some (idx1, e1)
  size : e1.ss = fs_write_size index e0.ss length offset length
  nonzero : ∀ k, k < (offset + length) / 1024 + 1 → e1.blocks.getD k 0 ≠ 0
  data : ∀ k, offset / 1024 ≤ k → (k = offset / 1024 ∨ k * 1024 < offset + length) →
    s4.disk (e1.blocks.getD k 0) = writtenBlock data length offset k

/-! ## Definitions for the name decoder, the mount and the directory claims -/

/-- First loop of `strDecode`:
`for (i = len - 1; i > 0 && str[i] == ' '; i--);` with the final `i` as result. -/
def strDecodeScan (str : List Nat) : Nat → Int → Int
  | 0, i => i
  | fuel + 1, i =>
    if i > 0 ∧ str.getD i.toNat 0 = 32 then strDecodeScan str fuel (i - 1) else i

/-- Second loop of `strDecode`: `for (; i >= 0; i--) dst[i] = str[i];`.  `dst`
holds the characters already stored, those after position `i`. -/
def strDecodeCopy (str : List Nat) : Nat → Int → List Nat → List Nat
  | 0, _, dst => dst
  | fuel + 1, i, dst =>
    if i ≥ 0 then strDecodeCopy str fuel (i - 1) (str.getD i.toNat 0 :: dst) else dst

/-- The function `strDecode`; the result is the content of `dst` in front of
the NUL it stores at `dst[i + 1]`. -/
def strDecode (str : List Nat) (len : Nat) : List Nat :=
  strDecodeCopy str len (strDecodeScan str len ((len : Int) - 1)) []

/-- The block numbers the map build of `fs_mount` writes to lie inside the
area it allocates: the stored block count is at least 1, and every listed
directory block and every non-zero pointer of an entry in use is below twice
the stored block count. -/
def MountInBounds (s : FS) : Prop :=
  1 ≤ (getSuper (disk_read s 0)).fssize ∧
  ∀ d, d < MAXDIRSZ → (getSuper (disk_read s 0)).dir d ≠ 0 →
    (getSuper (disk_read s 0)).dir d < (getSuper (disk_read s 0)).fssize * 2 ∧
    ∀ j, j < DIRENTS_PER_BLOCK →
      (getDirent (disk_read s ((getSuper (disk_read s 0)).dir d)) j).st ≠ 0 →
      ∀ k, k < FBLOCKS →
        (getDirent (disk_read s ((getSuper (disk_read s 0)).dir d)) j).blocks.getD k 0 ≠ 0 →
        (getDirent (disk_read s ((getSuper (disk_read s 0)).dir d)) j).blocks.getD k 0 <
          (getSuper (disk_read s 0)).fssize * 2

/-- The process state when the device that holds `noteVolume` reports 16
blocks instead of the 8 recorded in its superblock, and `fs_mount()` has been
called on it. -/
def mismatchState : FS :=
  stateOr (boot noteVolume.disk 16) (fs_mount (boot noteVolume.disk 16) (fun _ => 0))

/-- A new entry for a file `NEW` without content. -/
def newEntry : fs_dirent :=
  { st := TFILE, name := strEncode (cstr "NEW") FNAMESZ, ex := 0, ss := 0
    blocks := [0, 0, 0, 0, 0, 0, 0, 0] }

/-- A mounted state whose directory list has all 504 positions in use, position
`i` naming block `i + 1`, and in which every slot of every block holds an entry
in use. -/
def saturatedVolume : FS :=
  { superB :=
      { magic := FS_MAGIC, fssize := 600, label := strEncode (cstr "DISK") LABELSZ
        dir := fun i => if i < MAXDIRSZ then i + 1 else 0 }
    blockBitMap := List.replicate 505 NOT_FREE ++ List.replicate 695 FREE
    disk := fun _ i => if i % DIRENT_SIZE = 0 then TFILE else 0
    nblocks := 600 }

/-- A device image of 8 blocks whose directory block 1 holds, for the same
name `B`, an extent entry with sequence number 0 in slot 0 and the primary
entry in slot 1. -/
def extentImage : Nat → Block := fun b =>
  if b = 0 then
    setSuper (fun _ => 0)
      { magic := FS_MAGIC, fssize := 8, label := strEncode (cstr "DISK") LABELSZ
        dir := fun i => if i = 0 then 1 else 0 }
  else if b = 1 then
    setDirent
      (setDirent (fun _ => 0) 0
        { st := TEXT, name := strEncode (cstr "B") FNAMESZ, ex := 0, ss := 7
          blocks := [4, 0, 0, 0, 0, 0, 0, 0] })
      1
      { st := TFILE, name := strEncode (cstr "B") FNAMESZ, ex := 0, ss := 5
        blocks := [3, 0, 0, 0, 0, 0, 0, 0] }
  else fun _ => 0

/-! # Theorems -/

set_option maxRecDepth 1000000

/-! ## Name codec: `strEncode` -/

theorem charAt_strlen (str : List Nat) : charAt str (strlen str) = 0 := by
  induction str with
  | nil => simp [charAt, strlen]
  | cons a t ih =>
    by_cases h : a = 0
    · simp [charAt, strlen, List.takeWhile, h]
    · simp only [charAt, strlen] at ih ⊢
      simp [List.takeWhile, h]
      simpa using ih

theorem charAt_ne_zero_of_lt_strlen (str : List Nat) :
    ∀ k, k < strlen str → charAt str k ≠ 0 := by
  induction str with
  | nil => intro k hk; simp [strlen] at hk
  | cons a t ih =>
    intro k hk
    by_cases h : a = 0
    · simp [strlen, List.takeWhile, h] at hk
    · cases k with
      | zero => simpa [charAt] using h
      | succ k =>
        have hk' : k < strlen t := by
          simp [strlen, List.takeWhile, h] at hk
          simpa [strlen] using hk
        have := ih k hk'
        simpa [charAt] using this

theorem strEncodeCopy_step (str : List Nat) (len fuel i : Nat) (dst : List Nat) :
    strEncodeCopy str len (fuel + 1) i dst =
      if i < len ∧ charAt str i ≠ 0 then
        strEncodeCopy str len fuel (i + 1) (dst ++ [encodeChar (charAt str i)])
      else dst := by
  simp only [strEncodeCopy, encodeChar]
  split_ifs <;> rfl

theorem strEncodeCopy_spec (str : List Nat) (len : Nat) :
    ∀ fuel i dst, dst.length = i → len - i ≤ fuel →
      ∃ ext, strEncodeCopy str len fuel i dst = dst ++ ext ∧
        i + ext.length ≤ max i len ∧
        (∀ k, k < ext.length → charAt str (i + k) ≠ 0 ∧
          ext.getD k 0 = encodeChar (charAt str (i + k))) ∧
        (len ≤ i + ext.length ∨ charAt str (i + ext.length) = 0) := by
  intro fuel
  induction fuel with
  | zero =>
    intro i dst _ hf
    refine ⟨[], by simp [strEncodeCopy], by simp, by simp, ?_⟩
    left; simp; omega
  | succ n ih =>
    intro i dst hd hf
    rw [strEncodeCopy_step]
    by_cases hc : i < len ∧ charAt str i ≠ 0
    · rw [if_pos hc]
      obtain ⟨ext, he, hlen, hk, hend⟩ :=
        ih (i + 1) (dst ++ [encodeChar (charAt str i)]) (by simp [hd]) (by omega)
      refine ⟨encodeChar (charAt str i) :: ext, by simp [he], ?_, ?_, ?_⟩
      · simp only [List.length_cons]; omega
      · intro k hk'
        cases k with
        | zero => exact ⟨hc.2, by simp⟩
        | succ k =>
          have := hk k (by simpa using hk')
          have e : i + (k + 1) = i + 1 + k := by omega
          rw [e]
          exact ⟨this.1, by simpa using this.2⟩
      · have e : i + (encodeChar (charAt str i) :: ext).length = i + 1 + ext.length := by
          simp only [List.length_cons]; omega
        rw [e]; exact hend
    · rw [if_neg hc]
      refine ⟨[], by simp, by simp, by simp, ?_⟩
      by_cases h1 : i < len
      · right
        have : charAt str i = 0 := by
          by_contra h2; exact hc ⟨h1, h2⟩
        simpa using this
      · left; simp; omega

theorem strEncodeFill_spec (len : Nat) :
    ∀ fuel i dst, dst.length = i → len - i ≤ fuel →
      strEncodeFill len fuel i dst = dst ++ List.replicate (len - i) 32 := by
  intro fuel
  induction fuel with
  | zero =>
    intro i dst _ hf
    have : len - i = 0 := by omega
    simp [strEncodeFill, this]
  | succ n ih =>
    intro i dst hd hf
    simp only [strEncodeFill]
    by_cases h : i < len
    · rw [if_pos h, ih (i + 1) (dst ++ [32]) (by simp [hd]) (by omega)]
      have e : len - i = (len - (i + 1)) + 1 := by omega
      rw [e, List.replicate_succ]
      simp
    · have : len - i = 0 := by omega
      rw [if_neg h]; simp [this]

/-- The result of `strEncode`: the first `min (strlen str) len` characters are
encoded, the rest is spaces. -/
theorem strEncode_eq (str : List Nat) (len : Nat) :
    ∃ ext, strEncode str len = ext ++ List.replicate (len - ext.length) 32 ∧
      ext.length = min (strlen str) len ∧
      ∀ k, k < ext.length → ext.getD k 0 = encodeChar (charAt str k) := by
  obtain ⟨ext, he, hlen, hk, hend⟩ := strEncodeCopy_spec str len len 0 [] rfl (by omega)
  simp only [List.nil_append, Nat.zero_add] at he hlen hk hend
  refine ⟨ext, ?_, ?_, fun k h => (hk k h).2⟩
  · simp only [strEncode, he]
    exact strEncodeFill_spec len len ext.length ext rfl (by omega)
  · have h1 : ext.length ≤ len := by simpa using hlen
    have h2 : ext.length ≤ strlen str := by
      by_contra hlt
      have := (hk (strlen str) (by omega)).1
      exact this (charAt_strlen str)
    rcases hend with h | h
    · omega
    · have : ¬ ext.length < strlen str := fun hlt =>
        charAt_ne_zero_of_lt_strlen str _ hlt h
      omega

/-- C10: `strEncode` writes exactly `w` characters; below `min (strlen text) w`
a letter is stored upper-cased, a digit, `_` or `.` is stored unchanged and any
other character is stored as `?`; every later position is a space; and
"abc.txt!" at width 11 gives "ABC.TXT?" followed by three spaces. -/
theorem strEncode_definition (text : List Nat) (w : Nat) :
    (strEncode text w).length = w ∧
    (∀ i, i < min (strlen text) w →
      (97 ≤ charAt text i ∧ charAt text i ≤ 122 →
        (strEncode text w).getD i 0 = charAt text i - 32) ∧
      (65 ≤ charAt text i ∧ charAt text i ≤ 90 →
        (strEncode text w).getD i 0 = charAt text i) ∧
      ((48 ≤ charAt text i ∧ charAt text i ≤ 57) ∨ charAt text i = 95 ∨ charAt text i = 46 →
        (strEncode text w).getD i 0 = charAt text i) ∧
      (¬ (97 ≤ charAt text i ∧ charAt text i ≤ 122) ∧ ¬ (65 ≤ charAt text i ∧ charAt text i ≤ 90) ∧
        ¬ (48 ≤ charAt text i ∧ charAt text i ≤ 57) ∧ charAt text i ≠ 95 ∧ charAt text i ≠ 46 →
        (strEncode text w).getD i 0 = 63)) ∧
    (∀ i, min (strlen text) w ≤ i → i < w → (strEncode text w).getD i 0 = 32) ∧
    strEncode (cstr "abc.txt!") 11 = cstr "ABC.TXT?   " := by
  obtain ⟨ext, he, hlen, hk⟩ := strEncode_eq text w
  have hle : ext.length ≤ w := by omega
  refine ⟨?_, ?_, ?_, by decide⟩
  · rw [he]; simp; omega
  · intro i hi
    have hi' : i < ext.length := by omega
    have hv : (strEncode text w).getD i 0 = encodeChar (charAt text i) := by
      rw [he, List.getD_append _ _ _ _ hi']; exact hk i hi'
    rw [hv]
    generalize charAt text i = c
    simp only [encodeChar, isalpha, isdigit, toupper]
    refine ⟨?_, ?_, ?_, ?_⟩
    · intro h; simp; split_ifs <;> omega
    · intro h; simp; split_ifs <;> omega
    · intro h; simp; split_ifs <;> omega
    · intro h; simp; split_ifs <;> omega
  · intro i h1 h2
    rw [he, List.getD_append_right _ _ _ _ (by omega)]
    rw [List.getD_eq_getElem?_getD, List.getElem?_replicate_of_lt (by omega)]
    rfl

/-! ## Block allocator -/

theorem allocScan_spec (bm : List Nat) (n : Nat) (hmap : n ≤ bm.length) :
    ∀ fuel i, n - i ≤ fuel →
      ∃ k, allocScan bm n fuel i = some k ∧ i ≤ k ∧ k ≤ max i n ∧
        (∀ j, i ≤ j → j < k → isUsed bm j) ∧ (k < n → isFree bm k) := by
  intro fuel
  induction fuel with
  | zero =>
    intro i hf
    exact ⟨i, rfl, le_refl _, le_max_left _ _, fun j h1 h2 => by omega, fun h => by omega⟩
  | succ m ih =>
    intro i hf
    simp only [allocScan]
    by_cases hi : i < n
    · rw [if_pos hi]
      have hlt : i < bm.length := by omega
      rw [List.getElem?_eq_getElem hlt]
      by_cases hv : bm[i] = NOT_FREE
      · simp only [hv, if_true]
        obtain ⟨k, hk, h1, h2, h3, h4⟩ := ih (i + 1) (by omega)
        refine ⟨k, hk, by omega, ?_, ?_, h4⟩
        · have : max (i + 1) n = max i n := by
            rw [max_eq_right (by omega), max_eq_right (by omega)]
          omega
        · intro j hj1 hj2
          by_cases hji : j = i
          · subst hji
            simp [isUsed, List.getElem?_eq_getElem hlt, hv]
          · exact h3 j (by omega) hj2
      · simp only [hv, if_false]
        refine ⟨i, rfl, le_refl _, le_max_left _ _, fun j h1 h2 => by omega, fun _ => ?_⟩
        exact ⟨bm[i], List.getElem?_eq_getElem hlt, hv⟩
    · rw [if_neg hi]
      exact ⟨i, rfl, le_refl _, le_max_left _ _, fun j h1 h2 => by omega, fun h => by omega⟩

theorem isUsed_not_isFree {bm : List Nat} {i : Nat} (h : isUsed bm i) : ¬ isFree bm i := by
  rintro ⟨v, hv, hne⟩
  rw [isUsed, hv] at h
  exact hne (Option.some.inj h)

/-- What `allocBlock` does when a free entry exists below `fssize`. -/
theorem allocBlock_some (s : FS) (hmap : s.superB.fssize ≤ s.blockBitMap.length)
    (hfree : ∃ i, i < s.superB.fssize ∧ isFree s.blockBitMap i) :
    ∃ i, i < s.superB.fssize ∧ isFree s.blockBitMap i ∧
      (∀ j, j < i → isUsed s.blockBitMap j) ∧
      allocBlock s = some ({ s with blockBitMap := s.blockBitMap.set i NOT_FREE }, (i : Int)) := by
  obtain ⟨k, hk, _, h2, h3, h4⟩ :=
    allocScan_spec s.blockBitMap s.superB.fssize hmap s.superB.fssize 0 (by omega)
  have hkn : k < s.superB.fssize := by
    by_contra hge
    obtain ⟨i, hi, hfi⟩ := hfree
    exact isUsed_not_isFree (h3 i (Nat.zero_le _) (by omega)) hfi
  refine ⟨k, hkn, h4 hkn, fun j hj => h3 j (Nat.zero_le _) hj, ?_⟩
  simp only [allocBlock, hk, if_pos hkn]

/-- What `allocBlock` does when no entry below `fssize` is free. -/
theorem allocBlock_none (s : FS) (hmap : s.superB.fssize ≤ s.blockBitMap.length)
    (hfull : ∀ i, i < s.superB.fssize → ¬ isFree s.blockBitMap i) :
    allocBlock s = some (s, -1) := by
  obtain ⟨k, hk, _, h2, h3, h4⟩ :=
    allocScan_spec s.blockBitMap s.superB.fssize hmap s.superB.fssize 0 (by omega)
  have hkn : ¬ k < s.superB.fssize := fun h => hfull k h (h4 h)
  simp only [allocBlock, hk, if_neg hkn]

/-- C6: `allocBlock` is first-fit.  When the byte map covers the volume and an
entry below `fssize` is free, the result is the smallest free index `i`, entry
`i` is marked used and no other entry of the map changes (nor anything else in
the state); when no entry is free the result is -1 and the state is
unchanged. -/
theorem allocBlock_first_fit (s : FS) (hmap : s.superB.fssize ≤ s.blockBitMap.length) :
    ((∃ i, i < s.superB.fssize ∧ isFree s.blockBitMap i) →
      ∃ (i : Nat) (s1 : FS), allocBlock s = some (s1, (i : Int)) ∧
        i < s.superB.fssize ∧ isFree s.blockBitMap i ∧
        (∀ j, j < i → ¬ isFree s.blockBitMap j) ∧
        isUsed s1.blockBitMap i ∧
        (∀ j, j ≠ i → s1.blockBitMap[j]? = s.blockBitMap[j]?) ∧
        s1.blockBitMap.length = s.blockBitMap.length ∧
        s1.superB = s.superB ∧ s1.disk = s.disk ∧ s1.nblocks = s.nblocks) ∧
    ((∀ i, i < s.superB.fssize → ¬ isFree s.blockBitMap i) → allocBlock s = some (s, -1)) := by
  refine ⟨fun hfree => ?_, allocBlock_none s hmap⟩
  obtain ⟨i, hi, hf, hlt, he⟩ := allocBlock_some s hmap hfree
  refine ⟨i, _, he, hi, hf, fun j hj => isUsed_not_isFree (hlt j hj), ?_, ?_, by simp, rfl, rfl, rfl⟩
  · simp only [isUsed]
    rw [List.getElem?_set_self (by omega)]
  · intro j hj
    simp only
    rw [List.getElem?_set_ne (Ne.symm hj)]

/-- An instance of C6 on a freshly formatted and mounted volume of 8 blocks. -/
theorem allocBlock_first_fit_witness :
    (mountedVolume 8).superB.fssize ≤ (mountedVolume 8).blockBitMap.length ∧
    ∃ (i : Nat) (s1 : FS), allocBlock (mountedVolume 8) = some (s1, (i : Int)) ∧
      i < (mountedVolume 8).superB.fssize ∧ isUsed s1.blockBitMap i :=
  ⟨by decide,
    Exists.elim ((allocBlock_first_fit (mountedVolume 8) (by decide)).1
        ⟨2, by decide, 0, by decide, by decide⟩)
      (fun i h => Exists.elim h (fun s1 h1 => ⟨i, s1, h1.1, h1.2.1, h1.2.2.2.2.1⟩))⟩

/-! ## Evaluations -/

/-- C3: on an existing file `NOTE` holding "HELLO", `fs_write("NOTE", "X", 1, 3)`
returns 1 and the three bytes in front of offset 3, which read back as "HEL"
before the write, read back as zeros after it. -/
theorem fs_write_clears_front :
    fs_read noteVolume (cstr "NOTE") 3 0 = some (3, cstr "HEL") ∧
    retOf (fs_write noteVolume zeroUninit (cstr "NOTE") (cstr "X") 1 3) = some 1 ∧
    fs_read (stateOr noteVolume (fs_write noteVolume zeroUninit (cstr "NOTE") (cstr "X") 1 3))
      (cstr "NOTE") 3 0 = some (3, [0, 0, 0]) := by
  decide!

/-- C5: with no free block left, `fs_write("A", data, 1024, 0)` on the one-block
file `A` still returns 1024, and the entry it persists has size 1024 and holds
65535, the 16-bit image of the -1 of `allocBlock`, as second block pointer. -/
theorem fs_write_ignores_exhaustion :
    fullVolume.superB.fssize = 3 ∧
    fullVolume.blockBitMap.take 3 = [NOT_FREE, NOT_FREE, NOT_FREE] ∧
    retOf (allocBlock fullVolume) = some (-1) ∧
    lookup fullVolume (cstr "A") =
      some { st := TFILE, name := strEncode (cstr "A") FNAMESZ, ex := 0, ss := 1
             blocks := [2, 0, 0, 0, 0, 0, 0, 0] } ∧
    retOf (fs_write fullVolume zeroUninit (cstr "A") (List.replicate 1024 65) 1024 0) =
      some 1024 ∧
    lookup (stateOr fullVolume
        (fs_write fullVolume zeroUninit (cstr "A") (List.replicate 1024 65) 1024 0)) (cstr "A") =
      some { st := TFILE, name := strEncode (cstr "A") FNAMESZ, ex := 0, ss := 1024
             blocks := [2, 65535, 0, 0, 0, 0, 0, 0] } := by
  decide!

theorem eq_some_of_retOf (r : Option (FS × Int)) (v : Int) (s : FS) (h : retOf r = some v) :
    r = some (stateOr s r, v) := by
  cases r with
  | none => simp [retOf] at h
  | some p =>
    obtain ⟨s1, w⟩ := p
    simp only [retOf, Option.some.injEq] at h
    simp [stateOr, h]

/-- C7: the state reached by `fs_mount()` and `fs_write("A", data, 1024, 0)` on
a device of 3 blocks that holds the one-block file `A` is reachable, and in it
the entry in use of `A` holds the non-zero block pointer 65535, which the byte
map does not mark used. -/
theorem allocator_invariant_broken :
    Reachable exhaustedVolume ∧
    (getDirent (disk_read exhaustedVolume (exhaustedVolume.superB.dir 0)) 0).st = TFILE ∧
    (getDirent (disk_read exhaustedVolume (exhaustedVolume.superB.dir 0)) 0).blocks.getD 1 0
      = 65535 ∧
    ¬ isUsed exhaustedVolume.blockBitMap 65535 ∧
    ¬ allocatorInvariant exhaustedVolume := by
  have hst : (getDirent (disk_read exhaustedVolume (exhaustedVolume.superB.dir 0)) 0).st
      = TFILE := by decide!
  have hptr : (getDirent (disk_read exhaustedVolume
      (exhaustedVolume.superB.dir 0)) 0).blocks.getD 1 0 = 65535 := by decide!
  have hused : ¬ isUsed exhaustedVolume.blockBitMap 65535 := by
    show ¬ (exhaustedVolume.blockBitMap[65535]? = some NOT_FREE)
    decide!
  refine ⟨?_, hst, hptr, hused, ?_⟩
  · have h0 := eq_some_of_retOf (fs_mount (boot fullImage 3) (fun _ => 0)) 1
      (boot fullImage 3) (by decide!)
    have h2 := eq_some_of_retOf
      (fs_write fullVolume zeroUninit (cstr "A") (List.replicate 1024 65) 1024 0)
      1024 fullVolume (by decide!)
    exact Reachable.write _ _ _ _ _ _ _ _ (Reachable.mount _ _ _ h0) h2
  · rintro ⟨_, _, h3⟩
    have hd : exhaustedVolume.superB.dir 0 ≠ 0 := by decide!
    have := h3 0 (by decide) hd 0 (by decide) (by rw [hst]; decide) 1 (by decide)
      (by rw [hptr]; decide)
    rw [hptr] at this
    exact hused this

/-- C8: on a mounted volume whose file `B` sits in slot 0 of the second
directory block (index 32), `fs_delete("B")` reaches the update branch of
`writeFileEntry` with slot number 32 + 32 = 64 and stores the entry outside
the 32 slots of the local block: the execution has no defined result. -/
theorem fs_delete_second_directory_block :
    retOf (fs_mount (boot twoDirImage 8) (fun _ => 0)) = some 1 ∧
    readFileEntry (mountImage twoDirImage 8) (strEncode (cstr "B") FNAMESZ) 0 =
      some (32, { st := TFILE, name := strEncode (cstr "B") FNAMESZ, ex := 0, ss := 5
                  blocks := [3, 0, 0, 0, 0, 0, 0, 0] }) ∧
    retOf (writeFileEntry (mountImage twoDirImage 8) zeroUninit.block 32
      { st := FREE, name := strEncode (cstr "B") FNAMESZ, ex := 0, ss := 5
        blocks := [3, 0, 0, 0, 0, 0, 0, 0] }) = none ∧
    retOf (fs_delete (mountImage twoDirImage 8) zeroUninit (cstr "B")) = none := by
  decide!

/-- C9: on a mounted volume whose directory list is `[1, 2]`, with the file `A`
at directory index 1 and the file `B` in slot 1 of the second directory block
(index 33), the primary names are `A` and `B`; `fs_write("B", "x", 1, 0)`
returns 1 and stores the entry of `B` at index 33 - 32 = 1, over the entry of
`A`, so that afterwards two primary entries carry the name `B`. -/
theorem fs_write_duplicates_names :
    retOf (fs_mount (boot shadowImage 8) (fun _ => 0)) = some 1 ∧
    primaryNames (mountImage shadowImage 8) =
      [strEncode (cstr "A") FNAMESZ, strEncode (cstr "B") FNAMESZ] ∧
    (primaryNames (mountImage shadowImage 8)).Nodup ∧
    (readFileEntry (mountImage shadowImage 8) (strEncode (cstr "B") FNAMESZ) 0).map
      (fun r => r.1) = some 33 ∧
    retOf (fs_write (mountImage shadowImage 8) zeroUninit (cstr "B") (cstr "x") 1 0)
      = some 1 ∧
    primaryNames (stateOr (mountImage shadowImage 8)
        (fs_write (mountImage shadowImage 8) zeroUninit (cstr "B") (cstr "x") 1 0)) =
      [strEncode (cstr "B") FNAMESZ, strEncode (cstr "B") FNAMESZ] ∧
    ¬ (primaryNames (stateOr (mountImage shadowImage 8)
        (fs_write (mountImage shadowImage 8) zeroUninit (cstr "B") (cstr "x") 1 0))).Nodup := by
  decide!

/-! ## The entry view of a block -/

theorem setDirent_in (b : Block) (j : Nat) (e : fs_dirent) (o : Nat) (ho : o < 32) :
    setDirent b j e (32 * j + o) = direntByte e o := by
  simp only [setDirent, DIRENT_SIZE]
  rw [if_pos ⟨by omega, by omega⟩]
  congr 1
  omega

theorem setDirent_out (b : Block) (j : Nat) (e : fs_dirent) (i : Nat)
    (hi : i < 32 * j ∨ 32 * j + 32 ≤ i) : setDirent b j e i = b i := by
  simp only [setDirent, DIRENT_SIZE]
  rw [if_neg (by omega)]

theorem getDirent_congr (b1 b2 : Block) (j : Nat)
    (h : ∀ o, o < 32 → b1 (32 * j + o) = b2 (32 * j + o)) :
    getDirent b1 j = getDirent b2 j := by
  have h0 := h 0 (by omega)
  simp only [Nat.add_zero] at h0
  simp only [getDirent, DIRENT_SIZE, rd16, h0, FNAMESZ, FBLOCKS]
  have e12 := h 12 (by omega)
  have e13 := h 13 (by omega)
  have e14 := h 14 (by omega)
  have e15 := h 15 (by omega)
  have hn : List.map (fun k => b1 (32 * j + 1 + k)) (List.range 11) =
      List.map (fun k => b2 (32 * j + 1 + k)) (List.range 11) := by
    apply List.map_congr_left
    intro k hk
    have hk' : k < 11 := List.mem_range.mp hk
    have := h (1 + k) (by omega)
    simpa [Nat.add_assoc] using this
  have hb : List.map (fun k => b1 (32 * j + 16 + 2 * k) + 256 * b1 (32 * j + 16 + 2 * k + 1))
      (List.range 8) =
      List.map (fun k => b2 (32 * j + 16 + 2 * k) + 256 * b2 (32 * j + 16 + 2 * k + 1))
      (List.range 8) := by
    apply List.map_congr_left
    intro k hk
    have hk' : k < 8 := List.mem_range.mp hk
    have h1 := h (16 + 2 * k) (by omega)
    have h2 := h (16 + 2 * k + 1) (by omega)
    simp only [← Nat.add_assoc] at h1 h2
    rw [h1, h2]
  rw [hn, hb, e12, e13, e14, e15]

theorem getDirent_setDirent_ne (b : Block) (j j1 : Nat) (e : fs_dirent) (h : j1 ≠ j) :
    getDirent (setDirent b j e) j1 = getDirent b j1 := by
  apply getDirent_congr
  intro o ho
  apply setDirent_out
  rcases Nat.lt_or_gt_of_ne h with h1 | h1
  · left; omega
  · right; omega

theorem byte16_join (v : Nat) (hv : v < 65536) : byte16 v 0 + 256 * byte16 v 1 = v := by
  simp only [byte16]
  simp
  omega

theorem direntByte_blocks (e : fs_dirent) (o : Nat) (h : 16 ≤ o) :
    direntByte e o = byte16 (e.blocks.getD ((o - 16) / 2) 0) ((o - 16) % 2) := by
  have h0 : ¬ o = 0 := by omega
  have h12 : ¬ o < 12 := by omega
  have h14 : ¬ o < 14 := by omega
  have h16 : ¬ o < 16 := by omega
  simp only [direntByte, h0, h12, h14, h16, if_false]

theorem getDirent_setDirent_same (b : Block) (j : Nat) (e : fs_dirent) (he : WfDirent e) :
    getDirent (setDirent b j e) j = e := by
  obtain ⟨h1, h2, h3, h4, h5, h6, h7⟩ := he
  have hst : setDirent b j e (32 * j) = e.st := by
    have := setDirent_in b j e 0 (by omega)
    simp only [Nat.add_zero] at this
    rw [this]; simp [direntByte]; omega
  have hname : List.map (fun k => setDirent b j e (32 * j + 1 + k)) (List.range 11) = e.name := by
    apply List.ext_getElem
    · simp [h2, FNAMESZ]
    · intro n hn1 hn2
      simp only [List.getElem_map, List.getElem_range]
      have hn : n < 11 := by simpa using hn1
      rw [Nat.add_assoc, setDirent_in b j e (1 + n) (by omega)]
      simp only [direntByte]
      rw [if_neg (by omega), if_pos (by omega)]
      have e1 : 1 + n - 1 = n := by omega
      rw [e1, List.getD_eq_getElem _ _ hn2]
      exact Nat.mod_eq_of_lt (h3 _ (List.getElem_mem _))
  have hex : rd16 (setDirent b j e) (32 * j + 12) = e.ex := by
    simp only [rd16]
    rw [setDirent_in b j e 12 (by omega), Nat.add_assoc, setDirent_in b j e (12 + 1) (by omega)]
    simp only [direntByte]
    simpa using byte16_join e.ex h4
  have hss : rd16 (setDirent b j e) (32 * j + 14) = e.ss := by
    simp only [rd16]
    rw [setDirent_in b j e 14 (by omega), Nat.add_assoc, setDirent_in b j e (14 + 1) (by omega)]
    simp only [direntByte]
    simpa using byte16_join e.ss h5
  have hblocks : List.map (fun k => rd16 (setDirent b j e) (32 * j + 16 + 2 * k)) (List.range 8)
      = e.blocks := by
    apply List.ext_getElem
    · simp [h6, FBLOCKS]
    · intro n hn1 hn2
      simp only [List.getElem_map, List.getElem_range]
      have hn : n < 8 := by simpa using hn1
      simp only [rd16]
      have a1 : 32 * j + 16 + 2 * n = 32 * j + (16 + 2 * n) := by omega
      have a2 : 32 * j + 16 + 2 * n + 1 = 32 * j + (16 + 2 * n + 1) := by omega
      rw [a2, a1, setDirent_in b j e (16 + 2 * n) (by omega),
        setDirent_in b j e (16 + 2 * n + 1) (by omega)]
      rw [direntByte_blocks e _ (by omega), direntByte_blocks e _ (by omega)]
      have c1 : (16 + 2 * n - 16) / 2 = n := by omega
      have c2 : (16 + 2 * n - 16) % 2 = 0 := by omega
      have c3 : (16 + 2 * n + 1 - 16) / 2 = n := by omega
      have c4 : (16 + 2 * n + 1 - 16) % 2 = 1 := by omega
      rw [c1, c2, c3, c4, List.getD_eq_getElem _ _ hn2]
      exact byte16_join _ (h7 _ (List.getElem_mem _))
  simp only [getDirent, DIRENT_SIZE, FNAMESZ, FBLOCKS, hst, hname, hex, hss, hblocks]

theorem wfDirent_getDirent (b : Block) (j : Nat) (hb : ∀ i, b i < 256) :
    WfDirent (getDirent b j) := by
  refine ⟨hb _, by simp [getDirent], ?_, ?_, ?_, by simp [getDirent], ?_⟩
  · intro c hc
    simp only [getDirent, List.mem_map] at hc
    obtain ⟨k, _, rfl⟩ := hc
    exact hb _
  · simp only [getDirent, rd16]
    have := hb (DIRENT_SIZE * j + 12); have := hb (DIRENT_SIZE * j + 12 + 1); omega
  · simp only [getDirent, rd16]
    have := hb (DIRENT_SIZE * j + 14); have := hb (DIRENT_SIZE * j + 14 + 1); omega
  · intro p hp
    simp only [getDirent, List.mem_map] at hp
    obtain ⟨k, _, rfl⟩ := hp
    simp only [rd16]
    have := hb (DIRENT_SIZE * j + 16 + 2 * k); have := hb (DIRENT_SIZE * j + 16 + 2 * k + 1); omega

/-! ## Directory lookup -/

theorem readFileEntrySlots_spec (b : Block) (name : List Nat) (ext : Nat) :
    ∀ fuel j0, 32 - j0 ≤ fuel →
      (∀ j, readFileEntrySlots b name ext fuel j0 = some j →
        j0 ≤ j ∧ j < 32 ∧ entryMatches (getDirent b j) name ext = true ∧
        ∀ j1, j0 ≤ j1 → j1 < j → entryMatches (getDirent b j1) name ext = false) ∧
      (readFileEntrySlots b name ext fuel j0 = none →
        ∀ j1, j0 ≤ j1 → j1 < 32 → entryMatches (getDirent b j1) name ext = false) := by
  intro fuel
  induction fuel with
  | zero =>
    intro j0 hf
    refine ⟨fun j h => by simp [readFileEntrySlots] at h, fun _ j1 h1 h2 => by omega⟩
  | succ n ih =>
    intro j0 hf
    simp only [readFileEntrySlots, DIRENTS_PER_BLOCK, BLOCKSZ, DIRENT_SIZE]
    by_cases hj : j0 < 32
    · have hj' : j0 < 1024 / 32 := by omega
      rw [if_pos hj']
      by_cases hm : entryMatches (getDirent b j0) name ext = true
      · rw [if_pos hm]
        refine ⟨fun j h => ?_, fun h => by simp at h⟩
        have : j0 = j := Option.some.inj h
        subst this
        exact ⟨le_refl _, hj, hm, fun j1 h1 h2 => by omega⟩
      · rw [if_neg hm]
        have hm' : entryMatches (getDirent b j0) name ext = false := by simpa using hm
        obtain ⟨ih1, ih2⟩ := ih (j0 + 1) (by omega)
        refine ⟨fun j h => ?_, fun h j1 h1 h2 => ?_⟩
        · obtain ⟨a1, a2, a3, a4⟩ := ih1 j h
          refine ⟨by omega, a2, a3, fun j1 h1 h2 => ?_⟩
          by_cases e : j1 = j0
          · subst e; exact hm'
          · exact a4 j1 (by omega) h2
        · by_cases e : j1 = j0
          · subst e; exact hm'
          · exact ih2 h j1 (by omega) h2
    · have hj' : ¬ j0 < 1024 / 32 := by omega
      rw [if_neg hj']
      exact ⟨fun j h => by simp at h, fun _ j1 h1 h2 => by omega⟩

theorem readFileEntryDirs_spec (s : FS) (name : List Nat) (ext : Nat) :
    ∀ fuel d0, MAXDIRSZ - d0 ≤ fuel → (∀ k, k < d0 → s.superB.dir k ≠ 0) →
      (∀ idx e, readFileEntryDirs s name ext fuel d0 = some (idx, e) →
        ∃ d j, d0 ≤ d ∧ Listed s d ∧ j < 32 ∧ idx = d * 32 + j ∧ e = slotEntry s d j ∧
          entryMatches e name ext = true ∧
          ∀ d1 j1, d0 ≤ d1 → slotBefore d1 j1 d j → j1 < 32 →
            entryMatches (slotEntry s d1 j1) name ext = false) ∧
      (readFileEntryDirs s name ext fuel d0 = none →
        ∀ d j, d0 ≤ d → Listed s d → j < 32 →
          entryMatches (slotEntry s d j) name ext = false) := by
  intro fuel
  induction fuel with
  | zero =>
    intro d0 hf _
    refine ⟨fun idx e h => by simp [readFileEntryDirs] at h, fun _ d j h1 h2 _ => ?_⟩
    have := h2.1
    omega
  | succ n ih =>
    intro d0 hf hpre
    simp only [readFileEntryDirs]
    by_cases hc : d0 < MAXDIRSZ ∧ s.superB.dir d0 ≠ 0
    · rw [if_pos hc]
      have hl : Listed s d0 := ⟨hc.1, fun k hk => by
        by_cases e : k = d0
        · subst e; exact hc.2
        · exact hpre k (by omega)⟩
      obtain ⟨sl1, sl2⟩ := readFileEntrySlots_spec (disk_read s (s.superB.dir d0)) name ext
        DIRENTS_PER_BLOCK 0 (by simp [DIRENTS_PER_BLOCK, BLOCKSZ, DIRENT_SIZE])
      cases hr : readFileEntrySlots (disk_read s (s.superB.dir d0)) name ext DIRENTS_PER_BLOCK 0 with
      | some j =>
        simp only []
        obtain ⟨_, a2, a3, a4⟩ := sl1 j hr
        refine ⟨fun idx e h => ?_, fun h => by simp at h⟩
        simp only [Option.some.injEq, Prod.mk.injEq] at h
        obtain ⟨h1, h2⟩ := h
        refine ⟨d0, j, le_refl _, hl, a2, ?_, h2.symm, ?_, ?_⟩
        · rw [← h1]; simp [DIRENTS_PER_BLOCK, BLOCKSZ, DIRENT_SIZE]
        · rw [← h2]; exact a3
        · intro d1 j1 hd1 hb hj1
          rcases hb with hb | ⟨hb1, hb2⟩
          · omega
          · subst hb1
            exact a4 j1 (Nat.zero_le _) hb2
      | none =>
        simp only []
        have hnone := sl2 hr
        obtain ⟨ih1, ih2⟩ := ih (d0 + 1) (by omega) (fun k hk => by
          by_cases e : k = d0
          · subst e; exact hc.2
          · exact hpre k (by omega))
        refine ⟨fun idx e h => ?_, fun h d j hd hL hj => ?_⟩
        · obtain ⟨d, j, b1, b2, b3, b4, b5, b6, b7⟩ := ih1 idx e h
          refine ⟨d, j, by omega, b2, b3, b4, b5, b6, fun d1 j1 hd1 hb hj1 => ?_⟩
          by_cases e1 : d1 = d0
          · subst e1; exact hnone j1 (Nat.zero_le _) hj1
          · exact b7 d1 j1 (by omega) hb hj1
        · by_cases e1 : d = d0
          · subst e1; exact hnone j (Nat.zero_le _) hj
          · exact ih2 h d j (by omega) hL hj
    · rw [if_neg hc]
      refine ⟨fun idx e h => by simp at h, fun _ d j hd hL hj => ?_⟩
      exfalso
      apply hc
      refine ⟨?_, hL.2 d0 hd⟩
      have := hL.1
      omega

/-- What a successful `readFileEntry` returns: the first slot in scan order
whose entry passes the test. -/
theorem readFileEntry_some {s : FS} {name : List Nat} {ext idx : Nat} {e : fs_dirent}
    (h : readFileEntry s name ext = some (idx, e)) :
    ∃ d j, Listed s d ∧ j < 32 ∧ idx = d * 32 + j ∧ e = slotEntry s d j ∧
      entryMatches e name ext = true ∧
      ∀ d1 j1, slotBefore d1 j1 d j → j1 < 32 →
        entryMatches (slotEntry s d1 j1) name ext = false := by
  obtain ⟨d, j, _, a2, a3, a4, a5, a6, a7⟩ :=
    (readFileEntryDirs_spec s name ext MAXDIRSZ 0 (by omega) (fun k hk => by omega)).1 idx e h
  exact ⟨d, j, a2, a3, a4, a5, a6, fun d1 j1 hb hj => a7 d1 j1 (Nat.zero_le _) hb hj⟩

/-- What a failed `readFileEntry` means: no entry of a listed directory block
passes the test. -/
theorem readFileEntry_none {s : FS} {name : List Nat} {ext : Nat}
    (h : readFileEntry s name ext = none) :
    ∀ d j, Listed s d → j < 32 → entryMatches (slotEntry s d j) name ext = false :=
  fun d j hL hj =>
    (readFileEntryDirs_spec s name ext MAXDIRSZ 0 (by omega) (fun k hk => by omega)).2 h d j
      (Nat.zero_le _) hL hj

/-- The first slot in scan order whose entry passes the test is what
`readFileEntry` returns. -/
theorem readFileEntry_of_first {s : FS} {name : List Nat} {ext d j : Nat}
    (hL : Listed s d) (hj : j < 32) (hm : entryMatches (slotEntry s d j) name ext = true)
    (hfirst : ∀ d1 j1, slotBefore d1 j1 d j → j1 < 32 →
      entryMatches (slotEntry s d1 j1) name ext = false) :
    readFileEntry s name ext = some (d * 32 + j, slotEntry s d j) := by
  cases hr : readFileEntry s name ext with
  | none =>
    have := readFileEntry_none hr d j hL hj
    rw [hm] at this
    exact absurd this (by simp)
  | some p =>
    obtain ⟨idx, e⟩ := p
    obtain ⟨d2, j2, b1, b2, b3, b4, b5, b6⟩ := readFileEntry_some hr
    have hd : d2 = d := by
      rcases Nat.lt_trichotomy d2 d with h1 | h1 | h1
      · have := hfirst d2 j2 (Or.inl h1) b2
        rw [← b4, b5] at this
        exact absurd this (by simp)
      · exact h1
      · have := b6 d j (Or.inl h1) hj
        rw [hm] at this
        exact absurd this (by simp)
    subst hd
    have hjj : j2 = j := by
      rcases Nat.lt_trichotomy j2 j with h1 | h1 | h1
      · have := hfirst d2 j2 (Or.inr ⟨rfl, h1⟩) b2
        rw [← b4, b5] at this
        exact absurd this (by simp)
      · exact h1
      · have := b6 d2 j (Or.inr ⟨rfl, h1⟩) hj
        rw [hm] at this
        exact absurd this (by simp)
    subst hjj
    rw [b3, b4]

/-! ## Directory insert and update -/

theorem findEmptySlot_spec (b : Block) :
    ∀ fuel j0, 32 - j0 ≤ fuel →
      (∀ j, findEmptySlot b fuel j0 = some j →
        j0 ≤ j ∧ j < 32 ∧ (getDirent b j).st = TEMPTY ∧
        ∀ j1, j0 ≤ j1 → j1 < j → (getDirent b j1).st ≠ TEMPTY) ∧
      (findEmptySlot b fuel j0 = none →
        ∀ j1, j0 ≤ j1 → j1 < 32 → (getDirent b j1).st ≠ TEMPTY) := by
  intro fuel
  induction fuel with
  | zero =>
    intro j0 hf
    refine ⟨fun j h => by simp [findEmptySlot] at h, fun _ j1 h1 h2 => by omega⟩
  | succ n ih =>
    intro j0 hf
    simp only [findEmptySlot, DIRENTS_PER_BLOCK, BLOCKSZ, DIRENT_SIZE]
    by_cases hj : j0 < 32
    · have hj' : j0 < 1024 / 32 := by omega
      rw [if_pos hj']
      by_cases hm : (getDirent b j0).st = TEMPTY
      · rw [if_pos hm]
        refine ⟨fun j h => ?_, fun h => by simp at h⟩
        have : j0 = j := Option.some.inj h
        subst this
        exact ⟨le_refl _, hj, hm, fun j1 h1 h2 => by omega⟩
      · rw [if_neg hm]
        obtain ⟨ih1, ih2⟩ := ih (j0 + 1) (by omega)
        refine ⟨fun j h => ?_, fun h j1 h1 h2 => ?_⟩
        · obtain ⟨a1, a2, a3, a4⟩ := ih1 j h
          refine ⟨by omega, a2, a3, fun j1 h1 h2 => ?_⟩
          by_cases e : j1 = j0
          · subst e; exact hm
          · exact a4 j1 (by omega) h2
        · by_cases e : j1 = j0
          · subst e; exact hm
          · exact ih2 h j1 (by omega) h2
    · have hj' : ¬ j0 < 1024 / 32 := by omega
      rw [if_neg hj']
      exact ⟨fun j h => by simp at h, fun _ j1 h1 h2 => by omega⟩

/-- The insert scan stores the entry in the first slot, in scan order, whose
status is `TEMPTY`. -/
theorem insertScan_first (s : FS) (entry : fs_dirent) (d j : Nat)
    (hL : Listed s d) (hj : j < 32) (he : (slotEntry s d j).st = TEMPTY)
    (hfirst : ∀ d1 j1, slotBefore d1 j1 d j → j1 < 32 → (slotEntry s d1 j1).st ≠ TEMPTY) :
    ∀ fuel d0 blk, d0 ≤ d → MAXDIRSZ - d0 ≤ fuel →
      insertScan s entry fuel d0 blk =
        Sum.inl (disk_write s (s.superB.dir d)
          (setDirent (disk_read s (s.superB.dir d)) j entry), ((d * 32 + j : Nat) : Int)) := by
  intro fuel
  induction fuel with
  | zero =>
    intro d0 blk hd hf
    have := hL.1
    omega
  | succ n ih =>
    intro d0 blk hd hf
    have hlt : d0 < MAXDIRSZ := lt_of_le_of_lt hd hL.1
    simp only [insertScan]
    rw [if_pos hlt, if_neg (hL.2 d0 hd)]
    obtain ⟨sl1, sl2⟩ := findEmptySlot_spec (disk_read s (s.superB.dir d0)) DIRENTS_PER_BLOCK 0
      (by simp [DIRENTS_PER_BLOCK, BLOCKSZ, DIRENT_SIZE])
    by_cases e : d0 = d
    · subst e
      cases hr : findEmptySlot (disk_read s (s.superB.dir d0)) DIRENTS_PER_BLOCK 0 with
      | none =>
        exact absurd he (sl2 hr j (Nat.zero_le _) hj)
      | some j2 =>
        obtain ⟨_, a2, a3, a4⟩ := sl1 j2 hr
        have hjj : j2 = j := by
          rcases Nat.lt_trichotomy j2 j with h1 | h1 | h1
          · exact absurd a3 (hfirst d0 j2 (Or.inr ⟨rfl, h1⟩) a2)
          · exact h1
          · exact absurd he (a4 j (Nat.zero_le _) h1)
        subst hjj
        simp [DIRENTS_PER_BLOCK, BLOCKSZ, DIRENT_SIZE]
    · have hlt2 : d0 < d := by omega
      cases hr : findEmptySlot (disk_read s (s.superB.dir d0)) DIRENTS_PER_BLOCK 0 with
      | none =>
        simp only []
        exact ih (d0 + 1) _ (by omega) (by omega)
      | some j2 =>
        obtain ⟨_, a2, a3, _⟩ := sl1 j2 hr
        exact absurd a3 (hfirst d0 j2 (Or.inl hlt2) a2)

/-- The insert branch of `writeFileEntry` when a listed directory block has an
empty slot. -/
theorem writeFileEntry_insert (s : FS) (block0 : Block) (entry : fs_dirent) (d j : Nat)
    (hL : Listed s d) (hj : j < 32) (he : (slotEntry s d j).st = TEMPTY)
    (hfirst : ∀ d1 j1, slotBefore d1 j1 d j → j1 < 32 → (slotEntry s d1 j1).st ≠ TEMPTY) :
    writeFileEntry s block0 (-1) entry =
      some (disk_write s (s.superB.dir d)
        (setDirent (disk_read s (s.superB.dir d)) j entry), ((d * 32 + j : Nat) : Int)) := by
  simp only [writeFileEntry, if_true]
  rw [insertScan_first s entry d j hL hj he hfirst MAXDIRSZ 0 block0 (Nat.zero_le _) (by omega)]

/-- The update branch of `writeFileEntry` for an index in the first directory
block. -/
theorem writeFileEntry_update (s : FS) (block0 : Block) (entry : fs_dirent) (idx : Nat)
    (hidx : idx < 32) (hdir : s.superB.dir 0 ≠ 0) :
    writeFileEntry s block0 (idx : Int) entry =
      some (disk_write s (s.superB.dir 0)
        (setDirent (disk_read s (s.superB.dir 0)) idx entry), (idx : Int)) := by
  have h1 : ¬ ((idx : Int) = -1) := by omega
  have h2 : ¬ ((idx : Int) < 0) := by omega
  have h3 : idx / DIRENTS_PER_BLOCK = 0 := by
    simp [DIRENTS_PER_BLOCK, BLOCKSZ, DIRENT_SIZE]; omega
  simp only [writeFileEntry, if_neg h1, if_neg h2, Int.toNat_ofNat, h3]
  have h4 : (0 : Nat) < MAXDIRSZ := by simp [MAXDIRSZ]
  have h5 : idx + 0 * DIRENTS_PER_BLOCK < DIRENTS_PER_BLOCK := by
    simp [DIRENTS_PER_BLOCK, BLOCKSZ, DIRENT_SIZE]; omega
  rw [if_pos h4, if_neg hdir, if_pos h5]
  simp

/-! ## Allocation loops -/

theorem freeCount_pos (bm : List Nat) :
    ∀ n, 0 < freeCount bm n → ∃ i, i < n ∧ isFree bm i := by
  intro n
  induction n with
  | zero => intro h; simp [freeCount] at h
  | succ n ih =>
    intro h
    simp only [freeCount] at h
    by_cases h0 : 0 < freeCount bm n
    · obtain ⟨i, hi, hf⟩ := ih h0
      exact ⟨i, by omega, hf⟩
    · refine ⟨n, by omega, ?_⟩
      cases hv : bm[n]? with
      | none => simp [hv] at h; omega
      | some v =>
        simp only [hv] at h
        by_cases e : v = NOT_FREE
        · simp [e] at h; omega
        · exact ⟨v, hv, e⟩

theorem freeCount_set_ge (bm : List Nat) (i v : Nat) :
    ∀ n, n ≤ i → freeCount (bm.set i v) n = freeCount bm n := by
  intro n
  induction n with
  | zero => intro _; rfl
  | succ n ih =>
    intro h
    simp only [freeCount]
    rw [ih (by omega), List.getElem?_set_ne (by omega)]

theorem freeCount_set_used (bm : List Nat) (i : Nat) (hf : isFree bm i) :
    ∀ n, i < n → freeCount (bm.set i NOT_FREE) n + 1 = freeCount bm n := by
  intro n
  induction n with
  | zero => intro h; omega
  | succ n ih =>
    intro h
    simp only [freeCount]
    by_cases e : i = n
    · subst e
      obtain ⟨v, hv, hne⟩ := hf
      have hlt : i < bm.length := by
        rcases List.getElem?_eq_some_iff.mp hv with ⟨h1, _⟩
        exact h1
      rw [freeCount_set_ge bm i NOT_FREE i (le_refl _), List.getElem?_set_self hlt, hv]
      simp [hne]
    · rw [List.getElem?_set_ne e]
      have := ih (by omega)
      omega

theorem toU16_natCast (n : Nat) (h : n < 65536) : toU16 (n : Int) = n := by
  unfold toU16
  omega

theorem isFree_set_used {bm : List Nat} {i p : Nat} (h : isFree (bm.set i NOT_FREE) p) :
    p ≠ i ∧ isFree bm p := by
  obtain ⟨v, hv, hne⟩ := h
  by_cases e : p = i
  · subst e
    rw [List.getElem?_set] at hv
    simp only [if_true] at hv
    split at hv
    · exact absurd (Option.some.inj hv).symm hne
    · simp at hv
  · rw [List.getElem?_set_ne (Ne.symm e)] at hv
    exact ⟨e, v, hv, hne⟩

theorem isUsed_set_used {bm : List Nat} {i q : Nat} (h : isUsed bm q) :
    isUsed (bm.set i NOT_FREE) q := by
  unfold isUsed at *
  by_cases e : q = i
  · subst e
    have hlt : q < bm.length := by
      rcases List.getElem?_eq_some_iff.mp h with ⟨h1, _⟩
      exact h1
    rw [List.getElem?_set_self hlt]
  · rw [List.getElem?_set_ne (Ne.symm e)]
    exact h

theorem extendBlocks_spec (hi : Nat) (hhi : hi ≤ FBLOCKS) :
    ∀ fuel i (s : FS) (blocks : List Nat),
      hi - i ≤ fuel → blocks.length = FBLOCKS →
      s.superB.fssize ≤ s.blockBitMap.length → s.superB.fssize ≤ 65536 →
      hi - i ≤ freeCount s.blockBitMap s.superB.fssize →
      ∃ s1 blocks1, extendBlocks hi fuel i s blocks = some (s1, blocks1) ∧
        s1.superB = s.superB ∧ s1.disk = s.disk ∧ s1.nblocks = s.nblocks ∧
        s1.blockBitMap.length = s.blockBitMap.length ∧
        blocks1.length = FBLOCKS ∧
        (∀ k, k < i ∨ hi ≤ k → blocks1[k]? = blocks[k]?) ∧
        (∀ k, i ≤ k → k < hi → ∃ p, blocks1[k]? = some p ∧ p < s.superB.fssize ∧
            isFree s.blockBitMap p ∧ isUsed s1.blockBitMap p) ∧
        (∀ k1 k2, i ≤ k1 → k1 < k2 → k2 < hi → blocks1[k1]? ≠ blocks1[k2]?) ∧
        (∀ q, isUsed s.blockBitMap q → isUsed s1.blockBitMap q) ∧
        (∀ q, (∀ k, i ≤ k → k < hi → blocks1[k]? ≠ some q) →
            s1.blockBitMap[q]? = s.blockBitMap[q]?) ∧
        freeCount s1.blockBitMap s.superB.fssize + (hi - i) =
          freeCount s.blockBitMap s.superB.fssize := by
  intro fuel
  induction fuel with
  | zero =>
    intro i s blocks hf hlen _ _ _
    refine ⟨s, blocks, rfl, rfl, rfl, rfl, rfl, hlen, fun _ _ => rfl, fun k h1 h2 => by omega,
      fun k1 k2 h1 h2 h3 => by omega, fun _ h => h, fun _ _ => rfl, by omega⟩
  | succ n ih =>
    intro i s blocks hf hlen hmap h16 hcount
    simp only [extendBlocks]
    by_cases hlt : i < hi
    · rw [if_pos hlt]
      obtain ⟨i0, hi0, hfree0, _, halloc⟩ :=
        allocBlock_some s hmap (freeCount_pos _ _ (by omega))
      rw [halloc]
      simp only []
      rw [if_pos (by omega), toU16_natCast i0 (by omega)]
      have hcnt := freeCount_set_used s.blockBitMap i0 hfree0 s.superB.fssize hi0
      obtain ⟨s1, blocks1, e0, e1, e2, e3, e4, e5, e6, e7, e8, e9, e10, e11⟩ :=
        ih (i + 1) { s with blockBitMap := s.blockBitMap.set i0 NOT_FREE } (blocks.set i i0)
          (by omega) (by simp [hlen]) (by simpa using hmap) h16
          (by simp only; omega)
      simp only [List.length_set] at e4
      have hbi : blocks1[i]? = some i0 := by
        rw [e6 i (Or.inl (by omega)), List.getElem?_set_self (by omega)]
      refine ⟨s1, blocks1, e0, e1, e2, e3, e4, e5, ?_, ?_, ?_, ?_, ?_, ?_⟩
      · intro k hk
        rw [e6 k (by omega), List.getElem?_set_ne (by omega)]
      · intro k hk1 hk2
        by_cases e : k = i
        · subst e
          refine ⟨i0, hbi, hi0, hfree0, e9 i0 ?_⟩
          simp only [isUsed]
          rw [List.getElem?_set_self (by omega)]
        · obtain ⟨p, p1, p2, p3, p4⟩ := e7 k (by omega) hk2
          exact ⟨p, p1, p2, (isFree_set_used p3).2, p4⟩
      · intro k1 k2 h1 h2 h3
        by_cases e : k1 = i
        · subst e
          obtain ⟨p, p1, _, p3, _⟩ := e7 k2 (by omega) h3
          rw [hbi, p1]
          intro hEq
          have := (isFree_set_used p3).1
          exact this (Option.some.inj hEq).symm
        · exact e8 k1 k2 (by omega) h2 h3
      · intro q hq
        exact e9 q (isUsed_set_used hq)
      · intro q hq
        have hqi : q ≠ i0 := by
          intro e
          subst e
          exact hq i (le_refl _) hlt hbi
        rw [e10 q (fun k h1 h2 => hq k (by omega) h2)]
        simp only
        rw [List.getElem?_set_ne (Ne.symm hqi)]
      · simp only at e11
        omega
    · rw [if_neg hlt]
      refine ⟨s, blocks, rfl, rfl, rfl, rfl, rfl, hlen, fun _ _ => rfl, fun k h1 h2 => by omega,
        fun k1 k2 h1 h2 h3 => by omega, fun _ h => h, fun _ _ => rfl, by omega⟩

theorem createBlocks_eq_extendBlocks (hi : Nat) :
    ∀ fuel i (s : FS) (blocks : List Nat),
      s.superB.fssize ≤ s.blockBitMap.length → s.superB.fssize ≤ 65536 →
      hi - i ≤ freeCount s.blockBitMap s.superB.fssize →
      createBlocks hi fuel i s blocks = extendBlocks hi fuel i s blocks := by
  intro fuel
  induction fuel with
  | zero => intro i s blocks _ _ _; rfl
  | succ n ih =>
    intro i s blocks hmap h16 hcount
    simp only [createBlocks, extendBlocks]
    by_cases hlt : i < hi
    · rw [if_pos hlt, if_pos hlt]
      obtain ⟨i0, hi0, hfree0, _, halloc⟩ :=
        allocBlock_some s hmap (freeCount_pos _ _ (by omega))
      rw [halloc]
      simp only []
      by_cases h8 : i < FBLOCKS
      · rw [if_pos h8, if_pos h8, toU16_natCast i0 (by omega)]
        have hm : markUsed (s.blockBitMap.set i0 NOT_FREE) i0 =
            some (s.blockBitMap.set i0 NOT_FREE) := by
          simp only [markUsed, List.length_set]
          rw [if_pos (by omega), List.set_set]
        rw [hm]
        simp only []
        have hcnt := freeCount_set_used s.blockBitMap i0 hfree0 s.superB.fssize hi0
        exact ih (i + 1) { s with blockBitMap := s.blockBitMap.set i0 NOT_FREE } (blocks.set i i0)
          (by simpa using hmap) h16 (by simp only; omega)
      · rw [if_neg h8, if_neg h8]
    · rw [if_neg hlt, if_neg hlt]

/-! ## The data loops of `fs_write` -/

theorem fillBlock_spec (data : List Nat) (length : Nat) :
    ∀ fuel byte (block : Block) bw, 1024 - byte ≤ fuel →
      fillBlock data length fuel byte block bw =
        (fun i =>
          if byte ≤ i ∧ i < byte + min (1024 - byte) (length - bw) then
            data.getD (bw + (i - byte)) 0
          else block i,
         bw + min (1024 - byte) (length - bw)) := by
  intro fuel
  induction fuel with
  | zero =>
    intro byte block bw hf
    have h0 : min (1024 - byte) (length - bw) = 0 := by omega
    simp only [fillBlock, h0, Nat.add_zero]
    congr 1
    funext i
    rw [if_neg (by omega)]
  | succ n ih =>
    intro byte block bw hf
    simp only [fillBlock, BLOCKSZ]
    by_cases hc : byte < 1024 ∧ bw < length
    · rw [if_pos hc, ih (byte + 1) _ (bw + 1) (by omega)]
      have hm : min (1024 - byte) (length - bw) =
          min (1024 - (byte + 1)) (length - (bw + 1)) + 1 := by omega
      rw [hm]
      refine Prod.ext ?_ (by simp only; omega)
      simp only
      funext i
      by_cases h1 : byte + 1 ≤ i ∧
          i < byte + 1 + min (1024 - (byte + 1)) (length - (bw + 1))
      · rw [if_pos h1, if_pos (by omega)]
        congr 1
        omega
      · rw [if_neg h1]
        by_cases h2 : i = byte
        · rw [if_pos h2, if_pos (by omega)]
          congr 1
          omega
        · rw [if_neg h2, if_neg (by omega)]
    · rw [if_neg hc]
      have h0 : min (1024 - byte) (length - bw) = 0 := by omega
      simp only [h0, Nat.add_zero]
      congr 1
      funext i
      rw [if_neg (by omega)]

/-- The first block `fs_write` builds. -/
theorem fillBlock_first (data : List Nat) (length offset : Nat) :
    fillBlock data length BLOCKSZ (offset - offset / BLOCKSZ * BLOCKSZ) (fun _ => 0) 0 =
      (writtenBlock data length offset (offset / 1024),
       min (1024 - offset % 1024) length) := by
  have hB : BLOCKSZ = 1024 := rfl
  have hdm := Nat.div_add_mod offset 1024
  have hml := Nat.mod_lt offset (show 1024 > 0 by omega)
  have hsb : offset - offset / BLOCKSZ * BLOCKSZ = offset % 1024 := by rw [hB]; omega
  rw [hsb, fillBlock_spec data length BLOCKSZ _ _ 0 (by rw [hB]; omega)]
  refine Prod.ext ?_ (by simp)
  funext i
  simp only [writtenBlock, Nat.sub_zero, Nat.zero_add, hB]
  by_cases h1 : offset % 1024 ≤ i ∧ i < offset % 1024 + min (1024 - offset % 1024) length
  · rw [if_pos h1, if_pos (by omega)]
    congr 1
    omega
  · rw [if_neg h1, if_neg (by omega)]

/-- A later block `fs_write` builds, for the pointer position `blk` at which
`bytesWritten + offset = blk * BLOCKSZ`. -/
theorem fillBlock_next (data : List Nat) (length offset blk bw : Nat)
    (hal : bw + offset = blk * 1024) :
    fillBlock data length BLOCKSZ 0 (fun _ => 0) bw =
      (writtenBlock data length offset blk, bw + min 1024 (length - bw)) := by
  have hB : BLOCKSZ = 1024 := rfl
  rw [fillBlock_spec data length BLOCKSZ 0 _ bw (by simp [BLOCKSZ])]
  refine Prod.ext ?_ (by simp)
  funext i
  simp only [writtenBlock, Nat.sub_zero, Nat.zero_add, hB]
  by_cases h1 : 0 ≤ i ∧ i < min 1024 (length - bw)
  · rw [if_pos h1, if_pos (by omega)]
    congr 1
    omega
  · rw [if_neg h1, if_neg (by omega)]

theorem writeBlocks_done (data : List Nat) (length : Nat) (blocks : List Nat)
    (fuel blk : Nat) (s : FS) (bw : Nat) (h : length ≤ bw) :
    writeBlocks data length blocks fuel blk s bw = some (s, bw) := by
  cases fuel with
  | zero => rfl
  | succ n =>
    simp only [writeBlocks]
    rw [if_neg (by omega)]

theorem writeBlocks_spec (data : List Nat) (length offset : Nat) (blocks : List Nat)
    (hrange : offset + length ≤ 8 * 1024) :
    ∀ fuel blk (s : FS) bw,
      length - bw ≤ fuel → bw < length → bw + offset = blk * 1024 →
      (∀ j1 j2, blk ≤ j1 → j1 < j2 → j2 * 1024 < offset + length →
        blocks.getD j1 0 ≠ blocks.getD j2 0) →
      ∃ s1, writeBlocks data length blocks fuel blk s bw = some (s1, length) ∧
        s1.superB = s.superB ∧ s1.blockBitMap = s.blockBitMap ∧ s1.nblocks = s.nblocks ∧
        (∀ b, (∀ j, blk ≤ j → j * 1024 < offset + length → blocks.getD j 0 ≠ b) →
          s1.disk b = s.disk b) ∧
        (∀ j, blk ≤ j → j * 1024 < offset + length →
          s1.disk (blocks.getD j 0) = writtenBlock data length offset j) := by
  intro fuel
  induction fuel with
  | zero =>
    intro blk s bw hf hlt _ _
    omega
  | succ n ih =>
    intro blk s bw hf hlt hal hdist
    have hF : FBLOCKS = 8 := rfl
    simp only [writeBlocks]
    rw [if_pos hlt, if_pos (by rw [hF]; omega), fillBlock_next data length offset blk bw hal]
    simp only
    by_cases hmore : bw + min 1024 (length - bw) < length
    · obtain ⟨s1, e1, e2, e3, e4, e5, e6⟩ :=
        ih (blk + 1) (disk_write s (blocks.getD blk 0) (writtenBlock data length offset blk))
          (bw + min 1024 (length - bw)) (by omega) hmore
          (by omega)
          (fun j1 j2 h1 h2 h3 => hdist j1 j2 (by omega) h2 h3)
      refine ⟨s1, e1, e2, e3, e4, ?_, ?_⟩
      · intro b hb
        rw [e5 b (fun j h1 h2 => hb j (by omega) h2)]
        simp only [disk_write]
        rw [if_neg]
        exact fun e => hb blk (le_refl _) (by omega) e.symm
      · intro j h1 h2
        by_cases e : j = blk
        · subst e
          rw [e5 _ (fun j2 h3 h4 => (hdist j j2 (le_refl _) (by omega) h4).symm)]
          simp [disk_write]
        · exact e6 j (by omega) h2
    · have hdone : length ≤ bw + min 1024 (length - bw) := by omega
      have heq : bw + min 1024 (length - bw) = length := by omega
      rw [writeBlocks_done _ _ _ _ _ _ _ hdone, heq]
      refine ⟨_, rfl, rfl, rfl, rfl, ?_, ?_⟩
      · intro b hb
        simp only [disk_write]
        rw [if_neg]
        exact fun e => hb blk (le_refl _) (by omega) e.symm
      · intro j h1 h2
        have : j = blk := by omega
        subst this
        simp [disk_write]

/-! ## The data loops of `fs_read` -/

theorem readBytesLoop_file (s : FS) (e : fs_dirent) (length offset j : Nat) :
    ∀ fuel byte a, 1024 - byte ≤ fuel → byte ≤ 1024 → a + offset = j * 1024 + byte →
      readBytesLoop (disk_read s (e.blocks.getD j 0)) length offset e.ss fuel byte
          ((List.range a).map (fun k => fileByte s e (offset + k))) =
        (List.range (a + min (1024 - byte) (min length (e.ss - offset) - a))).map
          (fun k => fileByte s e (offset + k)) := by
  intro fuel
  induction fuel with
  | zero =>
    intro byte a hf hb hal
    have h0 : min (1024 - byte) (min length (e.ss - offset) - a) = 0 := by omega
    simp only [readBytesLoop, h0, Nat.add_zero]
  | succ n ih =>
    intro byte a hf hb hal
    simp only [readBytesLoop, BLOCKSZ, List.length_map, List.length_range]
    by_cases hc : byte < 1024 ∧ a < length ∧ offset + a < e.ss
    · rw [if_pos hc]
      have hbyte : disk_read s (e.blocks.getD j 0) byte = fileByte s e (offset + a) := by
        simp only [fileByte, BLOCKSZ]
        have h1 : (offset + a) / 1024 = j := by omega
        have h2 : (offset + a) % 1024 = byte := by omega
        rw [h1, h2]
      have happ : (List.range a).map (fun k => fileByte s e (offset + k)) ++
          [disk_read s (e.blocks.getD j 0) byte] =
          (List.range (a + 1)).map (fun k => fileByte s e (offset + k)) := by
        rw [hbyte, List.range_succ, List.map_append]
        rfl
      rw [happ, ih (byte + 1) (a + 1) (by omega) (by omega) (by omega)]
      congr 2
      omega
    · rw [if_neg hc]
      have h0 : min (1024 - byte) (min length (e.ss - offset) - a) = 0 := by omega
      rw [h0, Nat.add_zero]

theorem readBlocksLoop_file (s : FS) (e : fs_dirent) (length offset : Nat)
    (htot : offset + min length (e.ss - offset) ≤ 8 * 1024) :
    ∀ fuel blk a, 8 - blk ≤ fuel → a ≤ min length (e.ss - offset) →
      (a < min length (e.ss - offset) → a + offset = blk * 1024) →
      (∀ j, blk ≤ j → j * 1024 < offset + min length (e.ss - offset) →
        e.blocks.getD j 0 ≠ 0) →
      readBlocksLoop s e length offset fuel blk
          ((List.range a).map (fun k => fileByte s e (offset + k))) =
        (List.range (min length (e.ss - offset))).map (fun k => fileByte s e (offset + k)) := by
  intro fuel
  induction fuel with
  | zero =>
    intro blk a hf hle hal hnz
    have : a = min length (e.ss - offset) := by
      by_contra hne
      have := hal (by omega)
      omega
    simp only [readBlocksLoop, this]
  | succ n ih =>
    intro blk a hf hle hal hnz
    simp only [readBlocksLoop, FBLOCKS, List.length_map, List.length_range]
    by_cases hc : blk < 8 ∧ a < length ∧ offset + a < e.ss
    · rw [if_pos hc]
      have hlt : a < min length (e.ss - offset) := by omega
      have hal' := hal hlt
      rw [if_pos (hnz blk (le_refl _) (by omega)),
        readBytesLoop_file s e length offset blk BLOCKSZ 0 a (by simp [BLOCKSZ]) (by omega)
          (by omega)]
      exact ih (blk + 1) _ (by omega) (by omega) (fun h => by omega)
        (fun j h1 h2 => hnz j (by omega) h2)
    · rw [if_neg hc]
      have : a = min length (e.ss - offset) := by
        by_contra hne
        have := hal (by omega)
        omega
      rw [this]

/-- What `fs_read` returns for a file whose pointers after the first one read
are not zero: `min length (ss - offset)` bytes, taken from the file positions
`offset`, `offset + 1`, ... through the block pointers. -/
theorem fs_read_spec (s : FS) (name : List Nat) (length offset idx : Nat) (e : fs_dirent)
    (hm : s.superB.magic = FS_MAGIC)
    (hl : readFileEntry s (strEncode name FNAMESZ) 0 = some (idx, e))
    (hoff : offset < 8 * 1024)
    (htot : offset + min length (e.ss - offset) ≤ 8 * 1024)
    (hnz : ∀ j, offset / 1024 < j → j * 1024 < offset + min length (e.ss - offset) →
      e.blocks.getD j 0 ≠ 0) :
    fs_read s name length offset =
      some (((min length (e.ss - offset) : Nat) : Int),
        (List.range (min length (e.ss - offset))).map (fun k => fileByte s e (offset + k))) := by
  have hB : BLOCKSZ = 1024 := rfl
  have hsb : offset - offset / BLOCKSZ * BLOCKSZ = offset % 1024 := by rw [hB]; omega
  simp only [fs_read, hm, ne_eq, not_true_eq_false, if_false, hl, hsb]
  rw [if_pos (by simp only [BLOCKSZ, FBLOCKS]; omega)]
  have h1 := readBytesLoop_file s e length offset (offset / 1024) BLOCKSZ (offset % 1024) 0
    (by rw [hB]; omega) (by omega) (by omega)
  simp only [List.range_zero, List.map_nil, Nat.zero_add] at h1
  rw [hB] at h1 ⊢
  rw [h1]
  have h2 := readBlocksLoop_file s e length offset htot FBLOCKS (offset / 1024 + 1)
    (min (1024 - offset % 1024) (min length (e.ss - offset) - 0))
    (by simp only [FBLOCKS]; omega) (by omega) (fun h => by omega)
    (fun j h1 h2 => hnz j (by omega) h2)
  rw [h2]
  simp

/-! ## The allocation part of `fs_write` -/

theorem extendBlocks_outcome (hi : Nat) (hhi : hi ≤ 8) (i : Nat) (s : FS) (blocks : List Nat)
    (hlen : blocks.length = FBLOCKS)
    (hmap : s.superB.fssize ≤ s.blockBitMap.length) (h16 : s.superB.fssize ≤ 65536)
    (hcount : hi - i ≤ freeCount s.blockBitMap s.superB.fssize) :
    ∃ s1 blocks1, extendBlocks hi hi i s blocks = some (s1, blocks1) ∧
      AllocOutcome s s1 blocks blocks1 i hi := by
  obtain ⟨s1, blocks1, e0, e1, e2, e3, e4, e5, e6, e7, e8, e9, e10, e11⟩ :=
    extendBlocks_spec hi hhi hi i s blocks (by omega) hlen hmap h16 hcount
  exact ⟨s1, blocks1, e0, ⟨e1, e2, e3, e4, e5, e6, e7, e8, e9, e10, e11⟩⟩

theorem allocOutcome_refl (s : FS) (blocks : List Nat) (hlen : blocks.length = FBLOCKS)
    (i hi : Nat) (h : hi ≤ i) : AllocOutcome s s blocks blocks i hi :=
  ⟨rfl, rfl, rfl, rfl, hlen, fun _ _ => rfl, fun k h1 h2 => by omega,
    fun k1 k2 h1 h2 h3 => by omega, fun _ hq => hq, fun _ _ => rfl, by omega⟩

theorem normIndex_small (fuel idx : Nat) (h : idx ≤ 32) : normIndex fuel idx = idx := by
  cases fuel with
  | zero => rfl
  | succ n =>
    simp only [normIndex, DIRENTS_PER_BLOCK, BLOCKSZ, DIRENT_SIZE]
    rw [if_neg (by omega)]

/-- The first part of `fs_write` for an existing file in the first directory
block. -/
theorem fs_write_prepare_existing (s : FS) (u : Uninit) (fname : List Nat)
    (length offset idx : Nat) (e : fs_dirent)
    (hfind : readFileEntry s fname 0 = some (idx, e)) (hidx : idx < 32)
    (hlen : e.blocks.length = FBLOCKS)
    (hr : offset + length < 8 * 1024)
    (hmap : s.superB.fssize ≤ s.blockBitMap.length) (h16 : s.superB.fssize ≤ 65536)
    (hcount : (offset + length) / 1024 + 1 - (e.ss / 1024 + 1) ≤
      freeCount s.blockBitMap s.superB.fssize) :
    ∃ s1 blocks1,
      fs_write_prepare s u fname length offset =
        some (s1, { e with blocks := blocks1 }, (idx : Int)) ∧
      AllocOutcome s s1 e.blocks blocks1 (e.ss / 1024 + 1) ((offset + length) / 1024 + 1) := by
  simp only [fs_write_prepare, hfind, BLOCKSZ, normIndex_small MAXDIRSZ idx (by omega)]
  by_cases hgt : (offset + length) / 1024 + 1 > e.ss / 1024 + 1
  · rw [if_pos hgt]
    obtain ⟨s1, blocks1, h1, h2⟩ := extendBlocks_outcome ((offset + length) / 1024 + 1)
      (by omega) (e.ss / 1024 + 1) s e.blocks hlen hmap h16 hcount
    rw [h1]
    exact ⟨s1, blocks1, rfl, h2⟩
  · rw [if_neg hgt]
    exact ⟨s, e.blocks, rfl, allocOutcome_refl s e.blocks hlen _ _ (by omega)⟩

theorem strlen_of_ne_zero (l : List Nat) (h : ∀ c, c ∈ l → c ≠ 0) : strlen l = l.length := by
  simp only [strlen]
  rw [List.takeWhile_eq_self_iff.mpr (fun c hc => by simpa using h c hc)]

/-- The `strcpy` from an array without a NUL has no defined result. -/
theorem strcpy_of_ne_zero (dst src : List Nat) (h : ∀ c, c ∈ src → c ≠ 0) :
    strcpy dst src = none := by
  simp only [strcpy, strlen_of_ne_zero src h]
  rw [if_neg (by omega)]

/-! ## The data and entry part of `fs_write` -/

theorem writeData_spec (data : List Nat) (length offset : Nat) (blocks : List Nat) (s1 : FS)
    (hr : offset + length < 8 * 1024)
    (hdist : ∀ j1 j2, j1 < j2 → j2 < (offset + length) / 1024 + 1 →
      blocks.getD j1 0 ≠ blocks.getD j2 0) :
    ∃ s3, writeBlocks data length blocks length (offset / 1024 + 1)
        (disk_write s1 (blocks.getD (offset / 1024) 0)
          (writtenBlock data length offset (offset / 1024)))
        (min (1024 - offset % 1024) length) = some (s3, length) ∧
      s3.superB = s1.superB ∧ s3.blockBitMap = s1.blockBitMap ∧ s3.nblocks = s1.nblocks ∧
      (∀ b, (∀ j, j < (offset + length) / 1024 + 1 → blocks.getD j 0 ≠ b) →
        s3.disk b = s1.disk b) ∧
      (∀ j, offset / 1024 ≤ j → (j = offset / 1024 ∨ j * 1024 < offset + length) →
        s3.disk (blocks.getD j 0) = writtenBlock data length offset j) := by
  by_cases hlt : min (1024 - offset % 1024) length < length
  · obtain ⟨s3, e1, e2, e3, e4, e5, e6⟩ := writeBlocks_spec data length offset blocks (by omega)
      length (offset / 1024 + 1)
      (disk_write s1 (blocks.getD (offset / 1024) 0)
        (writtenBlock data length offset (offset / 1024)))
      (min (1024 - offset % 1024) length) (by omega) hlt (by omega)
      (fun j1 j2 h1 h2 h3 => hdist j1 j2 h2 (by omega))
    refine ⟨s3, e1, e2, e3, e4, ?_, ?_⟩
    · intro b hb
      rw [e5 b (fun j h1 h2 => hb j (by omega))]
      simp only [disk_write]
      rw [if_neg (fun e => hb (offset / 1024) (by omega) e.symm)]
    · intro j h1 h2
      by_cases e : j = offset / 1024
      · subst e
        rw [e5 _ (fun j2 h3 h4 => (hdist _ j2 (by omega) (by omega)).symm)]
        simp [disk_write]
      · exact e6 j (by omega) (by omega)
  · rw [writeBlocks_done _ _ _ _ _ _ _ (by omega)]
    have heq : min (1024 - offset % 1024) length = length := by omega
    rw [heq]
    refine ⟨_, rfl, rfl, rfl, rfl, ?_, ?_⟩
    · intro b hb
      simp only [disk_write]
      rw [if_neg (fun e => hb (offset / 1024) (by omega) e.symm)]
    · intro j h1 h2
      have : j = offset / 1024 := by omega
      subst this
      simp [disk_write]

theorem entryMatches_congr (e e1 : fs_dirent) (name : List Nat) (ext : Nat)
    (h1 : e1.st = e.st) (h2 : e1.name = e.name) (h3 : e1.ex = e.ex) :
    entryMatches e1 name ext = entryMatches e name ext := by
  simp only [entryMatches, h1, h2, h3]

theorem fs_write_size_lt (index : Int) (ss length offset bw : Nat) (h : ss < 65536) :
    fs_write_size index ss length offset bw < 65536 := by
  simp only [fs_write_size]
  split_ifs <;> omega

theorem listed_of_le {s : FS} {d d1 : Nat} (h : Listed s d) (hle : d1 ≤ d) : Listed s d1 :=
  ⟨lt_of_le_of_lt hle h.1, fun k hk => h.2 k (le_trans hk hle)⟩

/-- The second part of `fs_write`, from "starts writing to blocks" on, when the
entry ends up in slot `j` of the directory block at position `d`. -/
theorem fs_write_tail (s s1 : FS) (u : Uninit) (name data : List Nat) (length offset : Nat)
    (e0 : fs_dirent) (index : Int) (d j : Nat) (r : Int)
    (hm : s.superB.magic = FS_MAGIC)
    (hr : offset + length < 8 * 1024)
    (hprep : fs_write_prepare s u (strEncode name FNAMESZ) length offset = some (s1, e0, index))
    (hsb : s1.superB = s.superB) (hdisk : s1.disk = s.disk)
    (hwf : WfDirent e0)
    (hmatch : entryMatches e0 (strEncode name FNAMESZ) 0 = true)
    (hF1 : ∀ k, k < (offset + length) / 1024 + 1 → ∀ d1, Listed s d1 →
      s.superB.dir d1 ≠ e0.blocks.getD k 0)
    (hF2 : ∀ k1 k2, k1 < k2 → k2 < (offset + length) / 1024 + 1 →
      e0.blocks.getD k1 0 ≠ e0.blocks.getD k2 0)
    (hL : Listed s d) (hj : j < 32)
    (hnodup : ∀ d1, d1 < d → s.superB.dir d1 ≠ s.superB.dir d)
    (hbefore : ∀ d1 j1, slotBefore d1 j1 d j → j1 < 32 →
      entryMatches (slotEntry s d1 j1) (strEncode name FNAMESZ) 0 = false)
    (hput : ∀ (s3 : FS) (e1 : fs_dirent), s3.superB = s.superB →
      (∀ d1, Listed s d1 → s3.disk (s.superB.dir d1) = s.disk (s.superB.dir d1)) →
      writeFileEntry s3 u.block index e1 =
        some (disk_write s3 (s.superB.dir d)
          (setDirent (disk_read s3 (s.superB.dir d)) j e1), r)) :
    ∃ s4, fs_write s u name data length offset = some (s4, (length : Int)) ∧
      s4.superB = s.superB ∧ s4.blockBitMap = s1.blockBitMap ∧ s4.nblocks = s1.nblocks ∧
      readFileEntry s4 (strEncode name FNAMESZ) 0 =
        some (d * 32 + j, { e0 with ss := fs_write_size index e0.ss length offset length }) ∧
      (∀ k, offset / 1024 ≤ k → (k = offset / 1024 ∨ k * 1024 < offset + length) →
        s4.disk (e0.blocks.getD k 0) = writtenBlock data length offset k) := by
  obtain ⟨s3, w1, w2, w3, w4, w5, w6⟩ := writeData_spec data length offset e0.blocks s1 hr hF2
  have hdirs : ∀ d1, Listed s d1 → s3.disk (s.superB.dir d1) = s.disk (s.superB.dir d1) := by
    intro d1 hd1
    rw [w5 _ (fun k hk => (hF1 k hk d1 hd1).symm), hdisk]
  have hput' := hput s3 { e0 with ss := fs_write_size index e0.ss length offset length }
    (by rw [w2, hsb]) hdirs
  have hB : BLOCKSZ = 1024 := rfl
  have hF : FBLOCKS = 8 := rfl
  have hne : ¬ s.superB.magic ≠ FS_MAGIC := by simp [hm]
  simp only [fs_write]
  rw [if_neg hne, hprep]
  simp only []
  rw [fillBlock_first, hB, hF, if_pos (by omega)]
  simp only []
  rw [w1]
  simp only []
  rw [hput']
  simp only []
  obtain ⟨e1, he1⟩ : ∃ e1 : fs_dirent,
      e1 = { e0 with ss := fs_write_size index e0.ss length offset length } := ⟨_, rfl⟩
  obtain ⟨s4, hs4⟩ : ∃ s4 : FS, s4 = disk_write s3 (s.superB.dir d)
      (setDirent (disk_read s3 (s.superB.dir d)) j e1) := ⟨_, rfl⟩
  rw [← he1, ← hs4]
  have hsb4 : s4.superB = s.superB := by rw [hs4]; simp only [disk_write]; rw [w2, hsb]
  have hd4 : ∀ b, b ≠ s.superB.dir d → s4.disk b = s3.disk b := by
    intro b hb
    rw [hs4]
    simp only [disk_write]
    rw [if_neg hb]
  have hself : s4.disk (s.superB.dir d) = setDirent (s.disk (s.superB.dir d)) j e1 := by
    rw [hs4]
    simp only [disk_write, disk_read, if_true]
    rw [hdirs d hL]
  have hwf1 : WfDirent e1 := by
    obtain ⟨a1, a2, a3, a4, a5, a6, a7⟩ := hwf
    rw [he1]
    exact ⟨a1, a2, a3, a4, fs_write_size_lt _ _ _ _ _ a5, a6, a7⟩
  have hL4 : Listed s4 d := by
    refine ⟨hL.1, fun k hk => ?_⟩
    rw [hsb4]
    exact hL.2 k hk
  have hslot : slotEntry s4 d j = e1 := by
    simp only [slotEntry, disk_read]
    rw [hsb4, hself, getDirent_setDirent_same _ _ _ hwf1]
  have hm1 : entryMatches e1 (strEncode name FNAMESZ) 0 = true := by
    rw [he1, entryMatches_congr e0 { e0 with ss := fs_write_size index e0.ss length offset length }
      _ _ rfl rfl rfl]
    exact hmatch
  refine ⟨s4, rfl, hsb4, ?_, ?_, ?_, ?_⟩
  · rw [hs4]; simp only [disk_write]; exact w3
  · rw [hs4]; simp only [disk_write]; exact w4
  · have hfirst := @readFileEntry_of_first s4 (strEncode name FNAMESZ) 0 d j
        hL4 hj (by rw [hslot]; exact hm1)
        (by
          intro d1 j1 hb hj1
          have hother : slotEntry s4 d1 j1 = slotEntry s d1 j1 := by
            simp only [slotEntry, disk_read]
            rw [hsb4]
            rcases hb with hb | ⟨hb1, hb2⟩
            · rw [hd4 _ (hnodup d1 hb), hdirs d1 (listed_of_le hL (by omega))]
            · subst hb1
              rw [hself, getDirent_setDirent_ne _ _ _ _ (by omega)]
          rw [hother]
          exact hbefore d1 j1 hb hj1)
    rw [hfirst, hslot]
  · intro k hk1 hk2
    have hk : k < (offset + length) / 1024 + 1 := by omega
    rw [← w6 k hk1 hk2]
    exact hd4 _ (fun e => hF1 k hk d hL e.symm)

/-! ## Facts about the pointers after the allocation part -/

theorem getD_of_getElem? {l : List Nat} {k p : Nat} (h : l[k]? = some p) : l.getD k 0 = p := by
  rw [List.getD_eq_getElem?_getD, h]
  rfl

theorem getD_congr_getElem? {l l1 : List Nat} {k : Nat} (h : l1[k]? = l[k]?) :
    l1.getD k 0 = l.getD k 0 := by
  rw [List.getD_eq_getElem?_getD, List.getD_eq_getElem?_getD, h]

theorem allocOutcome_mem_lt {s s1 : FS} {blocks blocks1 : List Nat} {i hi : Nat}
    (h : AllocOutcome s s1 blocks blocks1 i hi) (h16 : s.superB.fssize ≤ 65536)
    (hold : ∀ p, p ∈ blocks → p < 65536) : ∀ p, p ∈ blocks1 → p < 65536 := by
  intro p hp
  obtain ⟨n, hn⟩ := List.mem_iff_getElem?.mp hp
  by_cases hc : n < i ∨ hi ≤ n
  · rw [h.kept n hc] at hn
    exact hold p (List.mem_iff_getElem?.mpr ⟨n, hn⟩)
  · obtain ⟨q, hq, hlt, _, _⟩ := h.granted n (by omega) (by omega)
    rw [hq] at hn
    have : q = p := Option.some.inj hn
    omega

/-- The pointers below `hi` after an allocation loop: none is a listed
directory block, no two are equal, none is zero. -/
theorem allocOutcome_ptrs {s s1 : FS} {blocks blocks1 : List Nat} {i hi : Nat}
    (h : AllocOutcome s s1 blocks blocks1 i hi) (hV : VolumeOk s)
    (hold : ∀ k, k < i → k < hi →
      blocks.getD k 0 ≠ 0 ∧ isUsed s.blockBitMap (blocks.getD k 0) ∧
      ∀ d, Listed s d → s.superB.dir d ≠ blocks.getD k 0)
    (hdist : ∀ k1 k2, k1 < k2 → k2 < i → k2 < hi → blocks.getD k1 0 ≠ blocks.getD k2 0) :
    (∀ k, k < hi → ∀ d, Listed s d → s.superB.dir d ≠ blocks1.getD k 0) ∧
    (∀ k1 k2, k1 < k2 → k2 < hi → blocks1.getD k1 0 ≠ blocks1.getD k2 0) ∧
    (∀ k, k < hi → blocks1.getD k 0 ≠ 0) := by
  have hnew : ∀ k, i ≤ k → k < hi →
      isFree s.blockBitMap (blocks1.getD k 0) ∧ blocks1[k]? = some (blocks1.getD k 0) := by
    intro k h1 h2
    obtain ⟨p, hp, _, hf, _⟩ := h.granted k h1 h2
    rw [getD_of_getElem? hp]
    exact ⟨hf, hp⟩
  have hkeep : ∀ k, k < i → blocks1.getD k 0 = blocks.getD k 0 :=
    fun k hk => getD_congr_getElem? (h.kept k (Or.inl hk))
  refine ⟨?_, ?_, ?_⟩
  · intro k hk d hd
    by_cases hc : k < i
    · rw [hkeep k hc]
      exact (hold k hc hk).2.2 d hd
    · intro e
      have hu := hV.dirUsed d hd
      rw [e] at hu
      exact isUsed_not_isFree hu (hnew k (by omega) hk).1
  · intro k1 k2 h12 h2
    by_cases hc2 : k2 < i
    · rw [hkeep k1 (by omega), hkeep k2 hc2]
      exact hdist k1 k2 h12 hc2 h2
    · by_cases hc1 : k1 < i
      · rw [hkeep k1 hc1]
        intro e
        have hu := (hold k1 hc1 (by omega)).2.1
        rw [e] at hu
        exact isUsed_not_isFree hu (hnew k2 (by omega) h2).1
      · intro e
        have a1 := (hnew k1 (by omega) (by omega)).2
        have a2 := (hnew k2 (by omega) h2).2
        apply h.distinct k1 k2 (by omega) h12 h2
        rw [a1, a2, e]
  · intro k hk
    by_cases hc : k < i
    · rw [hkeep k hc]
      exact (hold k hc hk).1
    · intro e
      have hf := (hnew k (by omega) hk).1
      rw [e] at hf
      exact isUsed_not_isFree hV.block0 hf

theorem strncmpEq_refl : ∀ n (a : List Nat), strncmpEq n a a = true := by
  intro n
  induction n with
  | zero => intro a; rfl
  | succ n ih =>
    intro a
    simp only [strncmpEq, ne_eq, not_true_eq_false, if_false]
    split_ifs
    · rfl
    · exact ih _

theorem encodeChar_lt (c : Nat) : encodeChar c < 256 := by
  simp only [encodeChar, isalpha, toupper]
  split_ifs with h1 h2 h3
  · omega
  · simp at h1; omega
  · simp [isdigit] at h3; omega
  · omega

theorem strEncode_length (str : List Nat) (len : Nat) : (strEncode str len).length = len := by
  obtain ⟨ext, he, hlen, _⟩ := strEncode_eq str len
  rw [he]
  simp
  omega

theorem strEncode_lt (str : List Nat) (len : Nat) : ∀ c, c ∈ strEncode str len → c < 256 := by
  obtain ⟨ext, he, hlen, hk⟩ := strEncode_eq str len
  intro c hc
  rw [he, List.mem_append] at hc
  rcases hc with hc | hc
  · obtain ⟨n, hn⟩ := List.mem_iff_getElem?.mp hc
    have hlt : n < ext.length := by
      rcases List.getElem?_eq_some_iff.mp hn with ⟨h1, _⟩
      exact h1
    have := hk n hlt
    rw [getD_of_getElem? hn] at this
    rw [this]
    exact encodeChar_lt _
  · have := List.eq_of_mem_replicate hc
    omega

theorem exists_first_empty (s : FS)
    (h : ∃ d j, Listed s d ∧ j < 32 ∧ (slotEntry s d j).st = TEMPTY) :
    ∃ d j, Listed s d ∧ j < 32 ∧ (slotEntry s d j).st = TEMPTY ∧
      ∀ d1 j1, slotBefore d1 j1 d j → j1 < 32 → (slotEntry s d1 j1).st ≠ TEMPTY := by
  classical
  have hex : ∃ n, ∃ d j, n = d * 32 + j ∧ Listed s d ∧ j < 32 ∧ (slotEntry s d j).st = TEMPTY := by
    obtain ⟨d, j, h1, h2, h3⟩ := h
    exact ⟨d * 32 + j, d, j, rfl, h1, h2, h3⟩
  obtain ⟨d, j, hn, h1, h2, h3⟩ := Nat.find_spec hex
  refine ⟨d, j, h1, h2, h3, fun d1 j1 hb hj1 he => ?_⟩
  have hlt : d1 * 32 + j1 < Nat.find hex := by
    rw [hn]
    rcases hb with hb | ⟨hb1, hb2⟩
    · omega
    · omega
  have hle : d1 ≤ d := by
    rcases hb with hb | ⟨hb1, hb2⟩ <;> omega
  exact Nat.find_min hex hlt ⟨d1, j1, rfl, listed_of_le h1 hle, hj1, he⟩

/-! ## `fs_write` as a whole -/

/-- The effect of `fs_write` on an existing file of the first directory
block. -/
theorem fs_write_existing (s : FS) (u : Uninit) (name data : List Nat) (length offset : Nat)
    (idx : Nat) (e : fs_dirent) (hV : VolumeOk s) (hr : offset + length < 8 * 1024)
    (hfind : readFileEntry s (strEncode name FNAMESZ) 0 = some (idx, e))
    (hidx : idx < 32) (hE : EntryOk s e)
    (hcount : (offset + length) / 1024 + 1 - (e.ss / 1024 + 1) ≤
      freeCount s.blockBitMap s.superB.fssize) :
    ∃ s1 s4 e1, fs_write s u name data length offset = some (s4, (length : Int)) ∧
      WriteEffect s name data length offset e (e.ss / 1024 + 1) (idx : Int) s1 s4 idx e1 := by
  obtain ⟨w1, w2, w3, w4, w5, w6, w7⟩ := hE.wf
  obtain ⟨s1, blocks1, hprep, hout⟩ := fs_write_prepare_existing s u (strEncode name FNAMESZ)
    length offset idx e hfind hidx w6 hr hV.mapCovers hV.fssize16 hcount
  obtain ⟨d, j, hL, hj, hidxe, hslot, hmatch, hfirst⟩ := readFileEntry_some hfind
  have hd0 : d = 0 := by omega
  subst hd0
  have hj0 : j = idx := by omega
  subst hj0
  have hB : BLOCKSZ = 1024 := rfl
  have hF : FBLOCKS = 8 := rfl
  obtain ⟨f1, f2, f3⟩ := allocOutcome_ptrs hout hV
    (fun k h1 h2 => hE.held k (by rw [hB]; omega) (by rw [hF]; omega))
    (fun k1 k2 h1 h2 h3 => hE.distinct k1 k2 h1 (by rw [hB]; omega) (by rw [hF]; omega))
  have hwf0 : WfDirent { e with blocks := blocks1 } :=
    ⟨w1, w2, w3, w4, w5, hout.length, allocOutcome_mem_lt hout hV.fssize16 w7⟩
  obtain ⟨s4, t1, t2, t3, t4, t5, t6⟩ := fs_write_tail s s1 u name data length offset
    { e with blocks := blocks1 } (j : Int) 0 j (j : Int) hV.mounted hr hprep hout.superB hout.disk
    hwf0 (by simp only [entryMatches] at hmatch ⊢; exact hmatch) f1 f2 hL hj
    (fun d1 h => by omega) hfirst
    (fun s3 e1 h1 h2 => by
      have := writeFileEntry_update s3 u.block e1 j hj (by rw [h1]; exact hL.2 0 (le_refl _))
      rw [h1] at this
      exact this)
  simp only [Nat.zero_mul, Nat.zero_add] at t5
  exact ⟨s1, s4, _, t1, ⟨hout, t2, t3, t5, rfl, f3, t6⟩⟩

theorem encodeChar_ne_zero (c : Nat) : encodeChar c ≠ 0 := by
  simp only [encodeChar, isalpha, toupper]
  split_ifs with h1 h2 h3
  · omega
  · simp at h1; omega
  · simp [isdigit] at h3; omega
  · omega

/-- No character `strEncode` stores is a NUL. -/
theorem strEncode_ne_zero (str : List Nat) (len : Nat) :
    ∀ c, c ∈ strEncode str len → c ≠ 0 := by
  obtain ⟨ext, he, hlen, hk⟩ := strEncode_eq str len
  intro c hc
  rw [he, List.mem_append] at hc
  rcases hc with hc | hc
  · obtain ⟨n, hn⟩ := List.mem_iff_getElem?.mp hc
    have hlt : n < ext.length := by
      rcases List.getElem?_eq_some_iff.mp hn with ⟨h1, _⟩
      exact h1
    have := hk n hlt
    rw [getD_of_getElem? hn] at this
    rw [this]
    exact encodeChar_ne_zero _
  · have := List.eq_of_mem_replicate hc
    omega

/-- The first part of `fs_write` for a name that has no entry: the `strcpy`
from `fname` finds no NUL in the array. -/
theorem fs_write_prepare_new (s : FS) (u : Uninit) (name : List Nat) (length offset : Nat)
    (hfind : readFileEntry s (strEncode name FNAMESZ) 0 = none) :
    fs_write_prepare s u (strEncode name FNAMESZ) length offset = none := by
  simp only [fs_write_prepare, hfind,
    strcpy_of_ne_zero u.dirent.name _ (strEncode_ne_zero name FNAMESZ)]

/-- On a mounted volume `fs_write` of a name that has no entry has no defined
result. -/
theorem fs_write_new (s : FS) (u : Uninit) (name data : List Nat) (length offset : Nat)
    (hm : s.superB.magic = FS_MAGIC)
    (hfind : readFileEntry s (strEncode name FNAMESZ) 0 = none) :
    fs_write s u name data length offset = none := by
  simp only [fs_write, hm, ne_eq, not_true_eq_false, if_false,
    fs_write_prepare_new s u name length offset hfind]

/-! ## Writes to an existing file -/

theorem mem_take_iff_getElem? (l : List Nat) (n p : Nat) :
    p ∈ l.take n ↔ ∃ k, k < n ∧ l[k]? = some p := by
  rw [List.mem_iff_getElem?]
  constructor
  · rintro ⟨k, hk⟩
    rw [List.getElem?_take] at hk
    by_cases h : k < n
    · rw [if_pos h] at hk
      exact ⟨k, h, hk⟩
    · rw [if_neg h] at hk
      exact absurd hk (by simp)
  · rintro ⟨k, h, hk⟩
    exact ⟨k, by rw [List.getElem?_take, if_pos h]; exact hk⟩

theorem fs_write_size_ge (index : Int) (ss length offset : Nat)
    (hr : offset + length < 8 * 1024) (hoff : offset ≤ ss) (hss : ss < 65536) :
    offset + length ≤ fs_write_size index ss length offset length := by
  simp only [fs_write_size]
  split_ifs <;> omega

theorem writeReady_range {s : FS} {name : List Nat} {length offset : Nat}
    (h : WriteReady s name length offset) : offset + length < 8 * 1024 := h.2.1

/-- What `fs_write` does under `WriteReady`. -/
theorem fs_write_effect (s : FS) (u : Uninit) (name data : List Nat) (length offset : Nat)
    (h : WriteReady s name length offset) :
    ∃ idx e s1 s4 e1, readFileEntry s (strEncode name FNAMESZ) 0 = some (idx, e) ∧
      e.ss < 65536 ∧
      fs_write s u name data length offset = some (s4, (length : Int)) ∧
      WriteEffect s name data length offset e (e.ss / 1024 + 1) (idx : Int) s1 s4 idx e1 := by
  obtain ⟨hV, hr, hcase⟩ := h
  have hr' : offset + length < 8 * 1024 := hr
  cases hfind : readFileEntry s (strEncode name FNAMESZ) 0 with
  | some p =>
    obtain ⟨idx, e⟩ := p
    rw [hfind] at hcase
    obtain ⟨hidx, hE, hcount⟩ := hcase
    obtain ⟨s1, s4, e1, h1, h2⟩ := fs_write_existing s u name data length offset idx e hV hr'
      hfind hidx hE hcount
    exact ⟨idx, e, s1, s4, e1, rfl, hE.wf.2.2.2.2.1, h1, h2⟩
  | none =>
    rw [hfind] at hcase
    exact hcase.elim

/-- The size stored for an existing file after a followed write that does not
start beyond its stored size: the larger of the old size and
`offset + length`. -/
theorem fs_write_existing_size (s : FS) (u : Uninit) (name data : List Nat)
    (length offset : Nat) (h : WriteReady s name length offset)
    (hoff : offset ≤ storedSize s name) :
    ∃ s4 idx1 e1, fs_write s u name data length offset = some (s4, (length : Int)) ∧
      readFileEntry s4 (strEncode name FNAMESZ) 0 = some (idx1, e1) ∧
      e1.ss = max (storedSize s name) (offset + length) := by
  have hr := writeReady_range h
  obtain ⟨idx, e, s1, s4, e1, hfind, hss, hw, heff⟩ := fs_write_effect s u name data length offset h
  have hst : storedSize s name = e.ss := by simp only [storedSize, hfind]
  have hsz := heff.size
  simp only [fs_write_size] at hsz
  refine ⟨s4, idx, e1, hw, heff.found, ?_⟩
  rw [hst] at hoff ⊢
  rw [hsz]
  have hne : ((idx : Int) ≠ -1) := by omega
  simp only [hne, ne_eq, not_false_eq_true, true_and]
  split_ifs <;> omega

theorem map_getD_range (data : List Nat) :
    (List.range data.length).map (fun k => data.getD k 0) = data := by
  apply List.ext_getElem
  · simp
  · intro n h1 h2
    simp only [List.getElem_map, List.getElem_range]
    exact List.getD_eq_getElem _ _ h2

/-- A followed `fs_write(name, data, n, offset)` on an existing file whose
offset is not beyond the stored size returns `n`, and the
`fs_read(name, n, offset)` that follows returns `n` and copies out exactly the
bytes written. -/
theorem fs_write_existing_round_trip (s : FS) (u : Uninit) (name data : List Nat)
    (length offset : Nat) (h : WriteReady s name length offset)
    (hoff : offset ≤ storedSize s name) (hdata : data.length = length) :
    ∃ s4, fs_write s u name data length offset = some (s4, (length : Int)) ∧
      fs_read s4 name length offset = some ((length : Int), data) := by
  have hr := writeReady_range h
  have hmag := h.1.mounted
  have key : ∀ (s4 : FS) (idx1 : Nat) (e1 : fs_dirent),
      s4.superB = s.superB →
      readFileEntry s4 (strEncode name FNAMESZ) 0 = some (idx1, e1) →
      offset + length ≤ e1.ss →
      (∀ k, k < (offset + length) / 1024 + 1 → e1.blocks.getD k 0 ≠ 0) →
      (∀ k, offset / 1024 ≤ k → (k = offset / 1024 ∨ k * 1024 < offset + length) →
        s4.disk (e1.blocks.getD k 0) = writtenBlock data length offset k) →
      fs_read s4 name length offset = some ((length : Int), data) := by
    intro s4 idx1 e1 hsb hfound hsz hnz hdat
    have hmin : min length (e1.ss - offset) = length := by omega
    rw [fs_read_spec s4 name length offset idx1 e1 (by rw [hsb]; exact hmag) hfound (by omega)
      (by omega) (fun j h1 h2 => hnz j (by omega)), hmin]
    have hbytes : (List.range length).map (fun k => fileByte s4 e1 (offset + k)) =
        (List.range length).map (fun k => data.getD k 0) := by
      apply List.map_congr_left
      intro k hk
      have hk' : k < length := List.mem_range.mp hk
      simp only [fileByte, disk_read, BLOCKSZ]
      rw [hdat ((offset + k) / 1024) (by omega) (by omega)]
      simp only [writtenBlock, BLOCKSZ]
      rw [if_pos (by omega)]
      congr 1
      omega
    rw [hbytes, ← hdata, map_getD_range]
  obtain ⟨idx, e, s1, s4, e1, hfind, hss, hw, heff⟩ := fs_write_effect s u name data length offset h
  have hst : storedSize s name = e.ss := by simp only [storedSize, hfind]
  refine ⟨s4, hw, key s4 idx e1 heff.superB heff.found ?_ heff.nonzero heff.data⟩
  rw [heff.size]
  exact fs_write_size_ge _ _ _ _ hr (by omega) hss

/-! ## Instances on the volume holding `NOTE` -/

/-- The volumes `noteVolume` and `fullVolume` are states after a successful
`fs_mount()`, with the byte map it builds. -/
theorem noteVolume_mounted :
    retOf (fs_mount (boot noteImage 8) (fun _ => 0)) = some 1 ∧
    noteVolume.blockBitMap.take 8 = [1, 1, 1, 0, 0, 0, 0, 0] ∧
    retOf (fs_mount (boot fullImage 3) (fun _ => 0)) = some 1 ∧
    fullVolume.blockBitMap.take 3 = [1, 1, 1] := by
  decide!

theorem listed_zero_only (s : FS) (h1 : s.superB.dir 1 = 0) {d : Nat} (hd : Listed s d) :
    d = 0 := by
  by_contra hne
  exact hd.2 1 (by omega) h1

/-- The volume holding the 5-byte file `NOTE` is ready for
`fs_write("NOTE", data, 3, 5)`. -/
theorem writeReady_note : WriteReady noteVolume (cstr "NOTE") 3 5 := by
  have hfind : readFileEntry noteVolume (strEncode (cstr "NOTE") FNAMESZ) 0 =
      some (0, { st := TFILE, name := strEncode (cstr "NOTE") FNAMESZ, ex := 0, ss := 5,
                 blocks := [2, 0, 0, 0, 0, 0, 0, 0] }) := by
    decide!
  have hd1 : noteVolume.superB.dir 1 = 0 := by decide!
  have hd0 : noteVolume.superB.dir 0 = 1 := by decide!
  refine ⟨⟨by decide!, by decide!, by decide!, by unfold isUsed; decide!, ?_⟩, by decide, ?_⟩
  · intro d hd
    have := listed_zero_only _ hd1 hd
    subst this
    unfold isUsed
    decide!
  · rw [hfind]
    refine ⟨by decide, ⟨by unfold WfDirent; decide, ?_, ?_⟩, by decide!⟩
    · intro k hk _
      have hk0 : k = 0 := by
        have : k ≤ 5 / 1024 := hk
        omega
      subst hk0
      refine ⟨by decide, by unfold isUsed; decide!, fun d hd => ?_⟩
      have := listed_zero_only _ hd1 hd
      subst this
      rw [hd0]
      decide
    · intro k1 k2 h12 hk _
      have : k2 ≤ 5 / 1024 := hk
      omega

/-- Appending "abc" to the 5-byte file `NOTE` gives the size 8. -/
theorem fs_write_existing_size_note :
    ∃ s4 idx1 e1, fs_write noteVolume zeroUninit (cstr "NOTE") (cstr "abc") 3 5 =
        some (s4, ((3 : Nat) : Int)) ∧
      readFileEntry s4 (strEncode (cstr "NOTE") FNAMESZ) 0 = some (idx1, e1) ∧
      e1.ss = max (storedSize noteVolume (cstr "NOTE")) (5 + 3) :=
  fs_write_existing_size noteVolume zeroUninit (cstr "NOTE") (cstr "abc") 3 5 writeReady_note
    (by decide!)

/-- Appending "abc" to the 5-byte file `NOTE` and reading it back. -/
theorem fs_write_existing_round_trip_note :
    ∃ s4, fs_write noteVolume zeroUninit (cstr "NOTE") (cstr "abc") 3 5 =
        some (s4, ((3 : Nat) : Int)) ∧
      fs_read s4 (cstr "NOTE") 3 5 = some (((3 : Nat) : Int), cstr "abc") :=
  fs_write_existing_round_trip noteVolume zeroUninit (cstr "NOTE") (cstr "abc") 3 5
    writeReady_note (by decide!) (by decide)

/-! ## Where the write claims fail -/

/-- C1: on the mounted volume holding the 5-byte file `NOTE`,
`fs_write("NOTE", "abc", 3, 8)` returns 3 and stores the size 5 + 3 = 8, not
8 + 3 = 11, so the `fs_read("NOTE", 3, 8)` that follows returns 0 and copies
nothing; and `fs_write("NEW", "abc", 3, 0)`, for a name that has no entry, has
no defined result, because its `strcpy` finds no NUL in `fname`. -/
theorem fs_write_read_beyond_size :
    retOf (fs_mount (boot noteImage 8) (fun _ => 0)) = some 1 ∧
    noteVolume.superB.magic = FS_MAGIC ∧
    storedSize noteVolume (cstr "NOTE") = 5 ∧
    retOf (fs_write noteVolume zeroUninit (cstr "NOTE") (cstr "abc") 3 8) = some 3 ∧
    storedSize (stateOr noteVolume
      (fs_write noteVolume zeroUninit (cstr "NOTE") (cstr "abc") 3 8)) (cstr "NOTE") = 8 ∧
    fs_read (stateOr noteVolume
        (fs_write noteVolume zeroUninit (cstr "NOTE") (cstr "abc") 3 8))
      (cstr "NOTE") 3 8 = some (0, []) ∧
    readFileEntry noteVolume (strEncode (cstr "NEW") FNAMESZ) 0 = none ∧
    retOf (fs_write noteVolume zeroUninit (cstr "NEW") (cstr "abc") 3 0) = none := by
  decide!

/-- C2: on the mounted volume holding the 5-byte file `NOTE`,
`fs_write("NOTE", "xy", 2, 10)` returns 2 and leaves the stored size 7, while
`max 5 (10 + 2)` is 12. -/
theorem fs_write_size_beyond_size :
    retOf (fs_mount (boot noteImage 8) (fun _ => 0)) = some 1 ∧
    storedSize noteVolume (cstr "NOTE") = 5 ∧
    retOf (fs_write noteVolume zeroUninit (cstr "NOTE") (cstr "xy") 2 10) = some 2 ∧
    storedSize (stateOr noteVolume
      (fs_write noteVolume zeroUninit (cstr "NOTE") (cstr "xy") 2 10)) (cstr "NOTE") = 7 ∧
    storedSize (stateOr noteVolume
      (fs_write noteVolume zeroUninit (cstr "NOTE") (cstr "xy") 2 10)) (cstr "NOTE") ≠
      max (storedSize noteVolume (cstr "NOTE")) (10 + 2) := by
  decide!

/-- C4: on a mounted volume `fs_write` of a name that has no entry never has a
defined result, because `strcpy(dirent.name, fname)` finds no NUL in the 11
characters of `fname`; so it is on a fresh volume of 8 blocks for
`fs_write("NOTE", data, 1024, 0)`.  The allocation loop of that branch, run
for `offset + length = 1024` on pointers whose indeterminate content is 7,
fills two pointers, 2 and 3, and leaves the other six as they were, while
`ceil(1024 / 1024)` is 1. -/
theorem fs_write_create_undefined :
    (∀ (s : FS) (u : Uninit) (name data : List Nat) (length offset : Nat),
      s.superB.magic = FS_MAGIC → readFileEntry s (strEncode name FNAMESZ) 0 = none →
      fs_write s u name data length offset = none) ∧
    (mountedVolume 8).superB.magic = FS_MAGIC ∧
    readFileEntry (mountedVolume 8) (strEncode (cstr "NOTE") FNAMESZ) 0 = none ∧
    strcpy zeroUninit.dirent.name (strEncode (cstr "NOTE") FNAMESZ) = none ∧
    retOf (fs_write (mountedVolume 8) zeroUninit (cstr "NOTE") (List.replicate 1024 65) 1024 0)
      = none ∧
    (createBlocks ((1024 + 0) / BLOCKSZ + 1) ((1024 + 0) / BLOCKSZ + 1) 0 (mountedVolume 8)
        ((List.replicate FBLOCKS 7).set 0 0)).map
      (fun r => (r.2, r.1.blockBitMap.take 8)) =
      some ([2, 3, 7, 7, 7, 7, 7, 7], [1, 1, 1, 1, 0, 0, 0, 0]) ∧
    (0 + 1024 + (BLOCKSZ - 1)) / BLOCKSZ = 1 := by
  refine ⟨fun s u name data length offset hm hnew =>
    fs_write_new s u name data length offset hm hnew, ?_⟩
  decide!

/-! ## Evaluations for the decoder, the mount and the directory claims -/

/-- C11: for the empty text the field `strEncode("", 11)` is 11 spaces, and
`strDecode` of it is one space, not the empty text: the decoded text ends in
a space and re-encoding it gives `?` followed by spaces, not the field.  For
"abc.txt!" the decoded text is "ABC.TXT?". -/
theorem strDecode_keeps_first_space :
    strEncode (cstr "") 11 = List.replicate 11 32 ∧
    strDecode (strEncode (cstr "") 11) 11 = cstr " " ∧
    strEncode (strDecode (strEncode (cstr "") 11) 11) 11 = cstr "?          " ∧
    strEncode (strDecode (strEncode (cstr "") 11) 11) 11 ≠ strEncode (cstr "") 11 ∧
    strDecode (strEncode (cstr "abc.txt!") 11) 11 = cstr "ABC.TXT?" := by
  decide!

/-- C13: after `fs_format` and a successful `fs_mount` on a blank device of 8
blocks, when the area `malloc` returned holds the byte 1 everywhere, the byte
map marks the blocks 2 to 7 used as well, and `allocBlock` finds no free
block. -/
theorem fs_mount_leaves_map_uninitialised :
    retOf (fs_mount (fs_format (boot (fun _ _ => 0) 8) (cstr "DISK")).1 (fun _ => 1)) = some 1 ∧
    (stateOr (boot (fun _ _ => 0) 8)
      (fs_mount (fs_format (boot (fun _ _ => 0) 8) (cstr "DISK")).1 (fun _ => 1))
      ).blockBitMap.take 8 = [1, 1, 1, 1, 1, 1, 1, 1] ∧
    retOf (allocBlock (stateOr (boot (fun _ _ => 0) 8)
      (fs_mount (fs_format (boot (fun _ _ => 0) 8) (cstr "DISK")).1 (fun _ => 1)))) =
      some (-1) ∧
    (mountedVolume 8).blockBitMap.take 8 = [1, 1, 0, 0, 0, 0, 0, 0] := by
  decide!

/-- C15: on a device that reports 16 blocks while its superblock records 8,
`fs_mount` returns 0, yet afterwards `fs_read("NOTE", 5, 0)` returns 5 with
the content of the file, and `fs_write("NOTE", "X", 1, 0)` returns 1 and
changes block 2 of the device. -/
theorem operations_run_after_failed_mount :
    (boot noteVolume.disk 16).superB.magic ≠ FS_MAGIC ∧
    retOf (fs_mount (boot noteVolume.disk 16) (fun _ => 0)) = some 0 ∧
    mismatchState.superB.magic = FS_MAGIC ∧
    fs_read mismatchState (cstr "NOTE") 5 0 = some (5, cstr "HELLO") ∧
    retOf (fs_write mismatchState zeroUninit (cstr "NOTE") (cstr "X") 1 0) = some 1 ∧
    mismatchState.disk 2 0 = 72 ∧
    (stateOr mismatchState
      (fs_write mismatchState zeroUninit (cstr "NOTE") (cstr "X") 1 0)).disk 2 0 = 88 := by
  decide!

/-- C16: on a mounted volume whose single directory block is full,
`writeFileEntry(-1, entry)` returns 32 and puts block 34 at position 1 of the
directory list, but slot 0 of block 34 holds a copy of the first entry of block
1, not `entry`, and the lookup of the name of `entry` finds nothing. -/
theorem writeFileEntry_growth_loses_entry :
    retOf (writeFileEntry (mountImage fullDirImage 40) zeroUninit.block (-1) newEntry)
      = some 32 ∧
    (stateOr (mountImage fullDirImage 40)
      (writeFileEntry (mountImage fullDirImage 40) zeroUninit.block (-1) newEntry)
      ).superB.dir 1 = 34 ∧
    getDirent ((stateOr (mountImage fullDirImage 40)
      (writeFileEntry (mountImage fullDirImage 40) zeroUninit.block (-1) newEntry)
      ).disk 34) 0 = fullDirEntry 0 ∧
    fullDirEntry 0 ≠ newEntry ∧
    readFileEntry (stateOr (mountImage fullDirImage 40)
      (writeFileEntry (mountImage fullDirImage 40) zeroUninit.block (-1) newEntry))
      newEntry.name 0 = none := by
  decide!

/-- C19: on a mounted volume whose directory list is `[1, 2]`,
`writeFileEntry(33, entry)` targets the listed block at position 1 with slot
number 33 + 32 = 65 and has no defined result, while index 5 is updated and
returned and index 64, whose position is not listed, gives -1. -/
theorem writeFileEntry_update_second_block :
    (mountImage twoDirImage 8).superB.dir (33 / DIRENTS_PER_BLOCK) = 2 ∧
    retOf (writeFileEntry (mountImage twoDirImage 8) zeroUninit.block 33 newEntry) = none ∧
    retOf (writeFileEntry (mountImage twoDirImage 8) zeroUninit.block 5 newEntry) = some 5 ∧
    retOf (writeFileEntry (mountImage twoDirImage 8) zeroUninit.block 64 newEntry)
      = some (-1) := by
  decide!

/-- C20: on a mounted volume whose directory block holds, for the name `B`, an
extent entry with sequence number 0 in slot 0 and the primary entry in slot 1,
`readFileEntry("B", 0, ent)` returns index 0 and the extent entry, whose status
is `TEXT`. -/
theorem readFileEntry_returns_extent :
    retOf (fs_mount (boot extentImage 8) (fun _ => 0)) = some 1 ∧
    (slotEntry (mountImage extentImage 8) 0 1).st = TFILE ∧
    (slotEntry (mountImage extentImage 8) 0 1).name = strEncode (cstr "B") FNAMESZ ∧
    readFileEntry (mountImage extentImage 8) (strEncode (cstr "B") FNAMESZ) 0 =
      some (0, { st := TEXT, name := strEncode (cstr "B") FNAMESZ, ex := 0, ss := 7
                 blocks := [4, 0, 0, 0, 0, 0, 0, 0] }) := by
  decide!

/-- C12 as stated fails: on a device of 65544 blocks `fs_format` returns 1 and
records the 16-bit block count 8, and the `fs_mount` that follows returns 0. -/
theorem fs_format_then_mount_fails :
    (boot (fun _ _ => 0) 65544).superB.magic ≠ FS_MAGIC ∧
    (fs_format (boot (fun _ _ => 0) 65544) (cstr "DISK")).2 = 1 ∧
    (getSuper ((fs_format (boot (fun _ _ => 0) 65544) (cstr "DISK")).1.disk 0)).fssize = 8 ∧
    retOf (fs_mount (fs_format (boot (fun _ _ => 0) 65544) (cstr "DISK")).1 (fun _ => 0))
      = some 0 := by
  decide!

theorem insertScan_full (s : FS) (entry : fs_dirent)
    (hfull : ∀ d, d < MAXDIRSZ → s.superB.dir d ≠ 0 ∧
      ∀ j, j < 32 → (slotEntry s d j).st ≠ TEMPTY) :
    ∀ fuel d0 blk, MAXDIRSZ - d0 ≤ fuel → d0 ≤ MAXDIRSZ →
      ∃ blk1, insertScan s entry fuel d0 blk = Sum.inr (MAXDIRSZ, blk1) := by
  intro fuel
  induction fuel with
  | zero =>
    intro d0 blk hf hle
    have : d0 = MAXDIRSZ := by omega
    subst this
    exact ⟨blk, rfl⟩
  | succ n ih =>
    intro d0 blk hf hle
    simp only [insertScan]
    by_cases hlt : d0 < MAXDIRSZ
    · rw [if_pos hlt, if_neg (hfull d0 hlt).1]
      obtain ⟨sl1, _⟩ := findEmptySlot_spec (disk_read s (s.superB.dir d0)) DIRENTS_PER_BLOCK 0
        (by simp [DIRENTS_PER_BLOCK, BLOCKSZ, DIRENT_SIZE])
      cases hr : findEmptySlot (disk_read s (s.superB.dir d0)) DIRENTS_PER_BLOCK 0 with
      | none =>
        simp only []
        exact ih (d0 + 1) _ (by omega) (by omega)
      | some j =>
        obtain ⟨_, a2, a3, _⟩ := sl1 j hr
        exact absurd a3 ((hfull d0 hlt).2 j a2)
    · rw [if_neg hlt]
      have : d0 = MAXDIRSZ := by omega
      subst this
      exact ⟨blk, rfl⟩

/-- With every position of the directory list in use and every slot occupied,
the insert branch of `writeFileEntry` reaches the store into
`superB.dir[MAXDIRSZ]`. -/
theorem writeFileEntry_insert_full (s : FS) (block0 : Block) (entry : fs_dirent)
    (hfull : ∀ d, d < MAXDIRSZ → s.superB.dir d ≠ 0 ∧
      ∀ j, j < 32 → (slotEntry s d j).st ≠ TEMPTY) :
    writeFileEntry s block0 (-1) entry = none := by
  obtain ⟨blk1, h⟩ := insertScan_full s entry hfull MAXDIRSZ 0 block0 (by omega) (by omega)
  simp only [writeFileEntry, if_true, h]
  cases allocBlock s with
  | none => rfl
  | some p =>
    obtain ⟨s1, r⟩ := p
    simp only []
    rw [if_neg (by omega)]

/-- C17: with all 504 positions of the directory list in use and every slot
occupied, `writeFileEntry(-1, entry)` leaves its scan with `dir = 504` and
stores into `superB.dir[504]`, outside the array: it has no defined result and
does not return -1. -/
theorem writeFileEntry_full_directory :
    (∀ d, d < MAXDIRSZ → saturatedVolume.superB.dir d ≠ 0) ∧
    (∀ d j, d < MAXDIRSZ → j < 32 → (slotEntry saturatedVolume d j).st = TFILE) ∧
    writeFileEntry saturatedVolume zeroUninit.block (-1) newEntry = none ∧
    retOf (writeFileEntry saturatedVolume zeroUninit.block (-1) newEntry) ≠ some (-1) := by
  have h1 : ∀ d, d < MAXDIRSZ → saturatedVolume.superB.dir d ≠ 0 := by
    intro d hd
    show (if d < MAXDIRSZ then d + 1 else 0) ≠ 0
    rw [if_pos hd]
    omega
  have h2 : ∀ d j, d < MAXDIRSZ → j < 32 → (slotEntry saturatedVolume d j).st = TFILE := by
    intro d j _ _
    show (if (DIRENT_SIZE * j) % DIRENT_SIZE = 0 then TFILE else 0) = TFILE
    rw [if_pos (by simp)]
  have h3 : writeFileEntry saturatedVolume zeroUninit.block (-1) newEntry = none :=
    writeFileEntry_insert_full _ _ _ (fun d hd => ⟨h1 d hd, fun j hj => by
      rw [h2 d j hd hj]; decide⟩)
  refine ⟨h1, h2, h3, ?_⟩
  rw [h3]
  decide

/-! ## The end-of-file bound of `fs_read` -/

/-- C18: for an existing file whose stored size is at most `8 * BLOCKSZ` and
whose pointers covering `[0, size)` are non-zero, and an offset below
`8 * BLOCKSZ`, `fs_read` returns `min length (size - offset)` (0 when the offset
is at or beyond the size) and the bytes it copies are those at the file
positions `offset + k`, all of them below the size. -/
theorem fs_read_eof_bound (s : FS) (name : List Nat) (length offset idx : Nat) (e : fs_dirent)
    (hm : s.superB.magic = FS_MAGIC)
    (hl : readFileEntry s (strEncode name FNAMESZ) 0 = some (idx, e))
    (hs : e.ss ≤ FBLOCKS * BLOCKSZ)
    (hp : ∀ j, j * BLOCKSZ < e.ss → e.blocks.getD j 0 ≠ 0)
    (ho : offset < FBLOCKS * BLOCKSZ) :
    ∃ out, fs_read s name length offset =
        some (((min length (e.ss - offset) : Nat) : Int), out) ∧
      out.length = min length (e.ss - offset) ∧
      ∀ k, k < out.length → out.getD k 0 = fileByte s e (offset + k) ∧ offset + k < e.ss := by
  have hs' : e.ss ≤ 8 * 1024 := hs
  have ho' : offset < 8 * 1024 := ho
  have hp' : ∀ j, j * 1024 < e.ss → e.blocks.getD j 0 ≠ 0 := hp
  refine ⟨_, fs_read_spec s name length offset idx e hm hl ho' (by omega)
    (fun j h1 h2 => hp' j (by omega)), by simp, ?_⟩
  intro k hk
  have hk' : k < min length (e.ss - offset) := by simpa using hk
  refine ⟨?_, by omega⟩
  rw [List.getD_eq_getElem?_getD, List.getElem?_map, List.getElem?_range hk']
  rfl

/-- An instance of C18: reading 10 bytes at offset 2 of the 5-byte file `NOTE`
returns the 3 bytes "LLO". -/
theorem fs_read_eof_bound_witness :
    noteVolume.superB.magic = FS_MAGIC ∧
    readFileEntry noteVolume (strEncode (cstr "NOTE") FNAMESZ) 0 =
      some (0, { st := TFILE, name := strEncode (cstr "NOTE") FNAMESZ, ex := 0, ss := 5,
                 blocks := [2, 0, 0, 0, 0, 0, 0, 0] }) ∧
    (∃ out, fs_read noteVolume (cstr "NOTE") 10 2 = some (((min 10 (5 - 2) : Nat) : Int), out) ∧
      out.length = min 10 (5 - 2)) ∧
    fs_read noteVolume (cstr "NOTE") 10 2 = some (3, cstr "LLO") :=
  ⟨by decide!, by decide!,
    Exists.elim
      (fs_read_eof_bound noteVolume (cstr "NOTE") 10 2 0
        { st := TFILE, name := strEncode (cstr "NOTE") FNAMESZ, ex := 0, ss := 5,
          blocks := [2, 0, 0, 0, 0, 0, 0, 0] }
        (by decide!) (by decide!) (by decide)
        (fun j hj => by
          have hj' : j * 1024 < 5 := hj
          have : j = 0 := by omega
          subst this
          decide)
        (by decide))
      (fun out h => ⟨out, h.1, h.2.1⟩),
    by decide!⟩

/-! ## The map build of `fs_mount` -/

theorem markUsed_lt (bm : List Nat) (i : Nat) (h : i < bm.length) :
    markUsed bm i = some (bm.set i NOT_FREE) := by
  simp only [markUsed, if_pos h]

theorem mountBlocks_some (blocks : List Nat) (n : Nat)
    (hin : ∀ k, k < FBLOCKS → blocks.getD k 0 ≠ 0 → blocks.getD k 0 < n) :
    ∀ fuel blk bm, bm.length = n →
      ∃ bm1, mountBlocks blocks fuel blk bm = some bm1 ∧ bm1.length = n := by
  intro fuel
  induction fuel with
  | zero => intro blk bm hl; exact ⟨bm, rfl, hl⟩
  | succ m ih =>
    intro blk bm hl
    simp only [mountBlocks]
    by_cases hb : blk < FBLOCKS
    · rw [if_pos hb]
      by_cases hz : blocks.getD blk 0 ≠ 0
      · rw [if_pos hz, markUsed_lt bm _ (by rw [hl]; exact hin blk hb hz)]
        exact ih (blk + 1) _ (by simp [hl])
      · rw [if_neg hz]
        exact ih (blk + 1) bm hl
    · rw [if_neg hb]
      exact ⟨bm, rfl, hl⟩

theorem mountDirents_some (block : Block) (n : Nat)
    (hin : ∀ j, j < DIRENTS_PER_BLOCK → (getDirent block j).st ≠ 0 →
      ∀ k, k < FBLOCKS → (getDirent block j).blocks.getD k 0 ≠ 0 →
        (getDirent block j).blocks.getD k 0 < n) :
    ∀ fuel j bm, bm.length = n →
      ∃ bm1, mountDirents block fuel j bm = some bm1 ∧ bm1.length = n := by
  intro fuel
  induction fuel with
  | zero => intro j bm hl; exact ⟨bm, rfl, hl⟩
  | succ m ih =>
    intro j bm hl
    simp only [mountDirents]
    by_cases hj : j < DIRENTS_PER_BLOCK
    · rw [if_pos hj]
      by_cases hz : (getDirent block j).st ≠ 0
      · rw [if_pos hz]
        obtain ⟨bm1, h1, h2⟩ := mountBlocks_some (getDirent block j).blocks n (hin j hj hz)
          FBLOCKS 0 bm hl
        rw [h1]
        exact ih (j + 1) bm1 h2
      · rw [if_neg hz]
        exact ih (j + 1) bm hl
    · rw [if_neg hj]
      exact ⟨bm, rfl, hl⟩

theorem mountDirs_some (s : FS) (n : Nat)
    (hin : ∀ d, d < MAXDIRSZ → s.superB.dir d ≠ 0 →
      s.superB.dir d < n ∧
      ∀ j, j < DIRENTS_PER_BLOCK → (getDirent (disk_read s (s.superB.dir d)) j).st ≠ 0 →
        ∀ k, k < FBLOCKS → (getDirent (disk_read s (s.superB.dir d)) j).blocks.getD k 0 ≠ 0 →
          (getDirent (disk_read s (s.superB.dir d)) j).blocks.getD k 0 < n) :
    ∀ fuel d bm, bm.length = n →
      ∃ bm1, mountDirs s fuel d bm = some bm1 ∧ bm1.length = n := by
  intro fuel
  induction fuel with
  | zero => intro d bm hl; exact ⟨bm, rfl, hl⟩
  | succ m ih =>
    intro d bm hl
    simp only [mountDirs]
    by_cases hd : d < MAXDIRSZ
    · rw [if_pos hd]
      by_cases hz : s.superB.dir d ≠ 0
      · rw [if_pos hz, markUsed_lt bm _ (by rw [hl]; exact (hin d hd hz).1)]
        simp only []
        obtain ⟨bm1, h1, h2⟩ := mountDirents_some (disk_read s (s.superB.dir d)) n
          (hin d hd hz).2 DIRENTS_PER_BLOCK 0 (bm.set (s.superB.dir d) NOT_FREE)
          (by simp [hl])
        rw [h1]
        exact ih (d + 1) bm1 h2
      · rw [if_neg hz]
        exact ih (d + 1) bm hl
    · rw [if_neg hd]
      exact ⟨bm, rfl, hl⟩

/-- When nothing is mounted, block 0 has the magic and the block count of the
device, and the map build stays inside the map, `fs_mount` returns 1 with the
superblock of block 0 in memory and a byte map of twice the block count. -/
theorem fs_mount_success (s : FS) (heap : Nat → Nat)
    (hA : s.superB.magic ≠ FS_MAGIC)
    (hB : (getSuper (disk_read s 0)).magic = FS_MAGIC)
    (hC : (getSuper (disk_read s 0)).fssize = s.nblocks)
    (hin : MountInBounds s) :
    ∃ bm, fs_mount s heap =
        some ({ s with superB := getSuper (disk_read s 0), blockBitMap := bm }, 1) ∧
      bm.length = (getSuper (disk_read s 0)).fssize * 2 := by
  obtain ⟨h1, h2⟩ := hin
  have hlen : ((List.range ((getSuper (disk_read s 0)).fssize * 2)).map heap).length =
      (getSuper (disk_read s 0)).fssize * 2 := by simp
  obtain ⟨bm1, e1, e2⟩ := mountDirs_some
    { s with superB := getSuper (disk_read s 0) } ((getSuper (disk_read s 0)).fssize * 2) h2
    MAXDIRSZ 0
    (((((List.range ((getSuper (disk_read s 0)).fssize * 2)).map heap).set 0 FREE).set 1
      FREE).set 0 NOT_FREE) (by simp)
  refine ⟨bm1, ?_, e2⟩
  simp only [fs_mount, if_neg hA, hB, ne_eq, not_true_eq_false, if_false]
  rw [if_neg (fun h => h hC), if_pos (by rw [hlen]; omega), e1]

theorem setSuper_zero_magic (sb : fs_sblock) (h : sb.magic < 65536) :
    (getSuper (setSuper (fun _ => 0) sb)).magic = sb.magic := by
  simp only [getSuper, rd16, setSuper]
  simpa using byte16_join sb.magic h

theorem setSuper_zero_fssize (sb : fs_sblock) (h : sb.fssize < 65536) :
    (getSuper (setSuper (fun _ => 0) sb)).fssize = sb.fssize := by
  simp only [getSuper, rd16, setSuper]
  simpa using byte16_join sb.fssize h

theorem setSuper_zero_label (sb : fs_sblock) (hl : sb.label.length = LABELSZ)
    (hc : ∀ c, c ∈ sb.label → c < 256) :
    (getSuper (setSuper (fun _ => 0) sb)).label = sb.label := by
  simp only [getSuper, LABELSZ]
  apply List.ext_getElem
  · simp [hl, LABELSZ]
  · intro n hn1 hn2
    simp only [List.getElem_map, List.getElem_range]
    have hn : n < 12 := by simpa using hn1
    simp only [setSuper]
    rw [if_neg (by omega), if_neg (by omega), if_pos (by omega)]
    have e1 : 4 + n - 4 = n := by omega
    rw [e1, List.getD_eq_getElem _ _ hn2]
    exact Nat.mod_eq_of_lt (hc _ (List.getElem_mem _))

theorem setSuper_zero_dir (sb : fs_sblock) (i : Nat) (h : sb.dir i < 65536) :
    (getSuper (setSuper (fun _ => 0) sb)).dir i = if i < MAXDIRSZ then sb.dir i else 0 := by
  simp only [getSuper, rd16, setSuper, BLOCKSZ, MAXDIRSZ]
  by_cases hi : i < 504
  · rw [if_pos hi, if_neg (by omega), if_neg (by omega), if_neg (by omega), if_pos (by omega),
      if_neg (by omega), if_neg (by omega), if_neg (by omega), if_pos (by omega)]
    have c1 : (16 + 2 * i - 16) / 2 = i := by omega
    have c2 : (16 + 2 * i - 16) % 2 = 0 := by omega
    have c3 : (16 + 2 * i + 1 - 16) / 2 = i := by omega
    have c4 : (16 + 2 * i + 1 - 16) % 2 = 1 := by omega
    rw [c1, c2, c3, c4]
    exact byte16_join _ h
  · have a2 : ¬ 16 + 2 * i < 2 := by omega
    have a4 : ¬ 16 + 2 * i < 4 := by omega
    have a16 : ¬ 16 + 2 * i < 16 := by omega
    have a1024 : ¬ 16 + 2 * i < 1024 := by omega
    have b2 : ¬ 16 + 2 * i + 1 < 2 := by omega
    have b4 : ¬ 16 + 2 * i + 1 < 4 := by omega
    have b16 : ¬ 16 + 2 * i + 1 < 16 := by omega
    have b1024 : ¬ 16 + 2 * i + 1 < 1024 := by omega
    rw [if_neg hi, if_neg a2, if_neg a4, if_neg a16, if_neg a1024, if_neg b2, if_neg b4,
      if_neg b16, if_neg b1024]

/-- The state `fs_format` leaves when nothing is mounted. -/
theorem fs_format_state (s : FS) (label : List Nat) (hA : s.superB.magic ≠ FS_MAGIC) :
    (fs_format s label).2 = 1 ∧
    (fs_format s label).1.superB = s.superB ∧
    (fs_format s label).1.nblocks = s.nblocks ∧
    (fs_format s label).1.disk 1 = (fun _ => 0) ∧
    (fs_format s label).1.disk 0 =
      setSuper (fun _ => 0)
        { magic := FS_MAGIC, fssize := s.nblocks % 65536, label := strEncode label LABELSZ,
          dir := fun i => if i = 0 then 1 else 0 } := by
  simp only [fs_format, if_neg hA, disk_write]
  simp

/-- The superblock `fs_format` stores in block 0 of a device of fewer than
65536 blocks. -/
theorem fs_format_super (s : FS) (label : List Nat) (hA : s.superB.magic ≠ FS_MAGIC)
    (h16 : s.nblocks < 65536) :
    (getSuper ((fs_format s label).1.disk 0)).magic = FS_MAGIC ∧
    (getSuper ((fs_format s label).1.disk 0)).fssize = s.nblocks ∧
    (getSuper ((fs_format s label).1.disk 0)).label = strEncode label LABELSZ ∧
    ∀ i, (getSuper ((fs_format s label).1.disk 0)).dir i = if i = 0 then 1 else 0 := by
  obtain ⟨_, _, _, _, h0⟩ := fs_format_state s label hA
  rw [h0]
  refine ⟨?_, ?_, ?_, ?_⟩
  · rw [setSuper_zero_magic _ (by simp [FS_MAGIC])]
  · rw [setSuper_zero_fssize _ (by simp only; omega)]
    simp only
    omega
  · rw [setSuper_zero_label _ (strEncode_length _ _) (strEncode_lt _ _)]
  · intro i
    rw [setSuper_zero_dir _ i (by simp only; split_ifs <;> omega)]
    simp only [MAXDIRSZ]
    split_ifs <;> omega

theorem getDirent_zero_st (j : Nat) : (getDirent (fun _ => 0) j).st = 0 := rfl

/-- The map build of `fs_mount` stays inside the map on a freshly formatted
device of at least 2 and fewer than 65536 blocks. -/
theorem mountInBounds_format (s : FS) (label : List Nat) (hA : s.superB.magic ≠ FS_MAGIC)
    (h2 : 2 ≤ s.nblocks) (h16 : s.nblocks < 65536) :
    MountInBounds (fs_format s label).1 := by
  obtain ⟨_, _, _, hd1, _⟩ := fs_format_state s label hA
  obtain ⟨_, hf, _, hdir⟩ := fs_format_super s label hA h16
  simp only [MountInBounds, disk_read]
  rw [hf]
  refine ⟨by omega, fun d hd hz => ?_⟩
  rw [hdir d] at hz ⊢
  by_cases h0 : d = 0
  · rw [if_pos h0]
    refine ⟨by omega, fun j _ hst => ?_⟩
    rw [hd1, getDirent_zero_st] at hst
    exact absurd rfl hst
  · rw [if_neg h0] at hz
    exact absurd rfl hz

/-- C12 (amended): from a state in which nothing is mounted, for every label
and every device of at least 2 and fewer than 65536 blocks, `fs_format`
returns 1 and writes a zeroed block 1 and, in block 0, a superblock with the
magic 0xF0F0, the block count of the device, the label `strEncode(label, 12)`
and the directory list `[1, 0, 0, ...]`; the `fs_mount` that follows returns 1
and the in-memory superblock is the one of block 0. -/
theorem fs_format_then_mount (s : FS) (label : List Nat) (heap : Nat → Nat)
    (hA : s.superB.magic ≠ FS_MAGIC) (h2 : 2 ≤ s.nblocks) (h16 : s.nblocks < 65536) :
    (fs_format s label).2 = 1 ∧
    (∀ i, (fs_format s label).1.disk 1 i = 0) ∧
    (getSuper ((fs_format s label).1.disk 0)).magic = FS_MAGIC ∧
    (getSuper ((fs_format s label).1.disk 0)).fssize = s.nblocks ∧
    (getSuper ((fs_format s label).1.disk 0)).label = strEncode label LABELSZ ∧
    (∀ i, (getSuper ((fs_format s label).1.disk 0)).dir i = if i = 0 then 1 else 0) ∧
    ∃ s2, fs_mount (fs_format s label).1 heap = some (s2, 1) ∧
      s2.superB = getSuper ((fs_format s label).1.disk 0) := by
  obtain ⟨hr, hsb, hn, hd1, _⟩ := fs_format_state s label hA
  obtain ⟨g1, g2, g3, g4⟩ := fs_format_super s label hA h16
  refine ⟨hr, fun i => by rw [hd1], g1, g2, g3, g4, ?_⟩
  obtain ⟨bm, hbm, _⟩ := fs_mount_success (fs_format s label).1 heap (by rw [hsb]; exact hA)
    g1 (by rw [hn]; exact g2) (mountInBounds_format s label hA h2 h16)
  exact ⟨_, hbm, rfl⟩

/-- An instance of C12 on a blank device of 8 blocks at process start. -/
theorem fs_format_then_mount_witness :
    (boot (fun _ _ => 0) 8).superB.magic ≠ FS_MAGIC ∧ 2 ≤ (boot (fun _ _ => 0) 8).nblocks ∧
    (boot (fun _ _ => 0) 8).nblocks < 65536 ∧
    (fs_format (boot (fun _ _ => 0) 8) (cstr "DISK")).2 = 1 ∧
    ∃ s2, fs_mount (fs_format (boot (fun _ _ => 0) 8) (cstr "DISK")).1 (fun _ => 0) =
        some (s2, 1) ∧
      s2.superB = getSuper ((fs_format (boot (fun _ _ => 0) 8) (cstr "DISK")).1.disk 0) :=
  ⟨by decide, by decide, by decide,
    (fs_format_then_mount (boot (fun _ _ => 0) 8) (cstr "DISK") (fun _ => 0)
      (by decide) (by decide) (by decide)).1,
    (fs_format_then_mount (boot (fun _ _ => 0) 8) (cstr "DISK") (fun _ => 0)
      (by decide) (by decide) (by decide)).2.2.2.2.2.2⟩

end OFS
